import Mathlib

/-!
Verification of the artifact/document synchronization subsystem.

The definitions below are a shallow embedding of the TypeScript sources:

* `lib/editor/suggestions.tsx` — `findPositionsInDoc`, `projectWithPositions`
* `lib/editor/config.ts` — `handleTransaction`
* `lib/editor/functions.tsx` — `buildContentFromDocument`, `buildDocumentFromContent`
* `lib/utils.ts` — `sanitizeResponseMessages`, `sanitizeUIMessages`
* `lib/ai/tools/create-document.ts`, `lib/ai/tools/update-document.ts`,
  `lib/ai/tools/request-suggestions.ts` — the three document tools
* `lib/artifacts/server.ts` — `createDocumentHandler`, the handler registry

Strings are modelled as `List Char` where character-level reasoning is
needed (the editor/codec part) and as `String` elsewhere.  Asynchronous
effects (data-stream writes, database saves) are modelled by returning the
ordered list of calls an execution performs.
-/

namespace AgileCoach

/-! ## ProseMirror document model

A ProseMirror document is a tree whose leaves are text nodes.  Positions
follow ProseMirror's coordinate space: a text node occupies one position
per character, a non-leaf node contributes an opening and a closing token.
The document node itself is a list of top-level children; position 0 sits
before the first child. -/

inductive PMNode where
  | text (s : List Char)
  | block (children : List PMNode)

/-- The children of the document node. -/
abbrev PMDoc := List PMNode

mutual

/-- The `nodeSize` of a ProseMirror node: text nodes count one position per
character, non-leaf nodes add an opening and a closing token. -/
def PMNode.size : PMNode → Nat
  | .text s => s.length
  | .block cs => 2 + sizeList cs

/-- Total size of a fragment (list of sibling nodes). -/
def sizeList : List PMNode → Nat
  | [] => 0
  | n :: ns => n.size + sizeList ns

end

/-- One coordinate slot of a document: either a structural token (the
opening or closing of a non-leaf node) or a character of a text leaf. -/
inductive Token where
  | gap
  | chr (c : Char)
  deriving DecidableEq, Repr

mutual

/-- The document's coordinate space flattened into a token list: position
`p` inside the node corresponds to index `p` of this list. -/
def PMNode.tokens : PMNode → List Token
  | .text s => s.map Token.chr
  | .block cs => Token.gap :: (tokensList cs ++ [Token.gap])

/-- Flattened coordinate space of a fragment. -/
def tokensList : List PMNode → List Token
  | [] => []
  | n :: ns => n.tokens ++ tokensList ns

end

mutual

/-- All text leaves of a node, in document order, each with the document
position of its first character (`pos` is the position of the node). -/
def PMNode.leavesAt (pos : Nat) : PMNode → List (Nat × List Char)
  | .text s => [(pos, s)]
  | .block cs => leavesListAt (pos + 1) cs

/-- All text leaves of a fragment starting at position `pos`. -/
def leavesListAt (pos : Nat) : List PMNode → List (Nat × List Char)
  | [] => []
  | n :: ns => n.leavesAt pos ++ leavesListAt (pos + n.size) ns

end

/-- Text leaves of a whole document (top-level fragment starts at 0). -/
def docLeaves (doc : PMDoc) : List (Nat × List Char) := leavesListAt 0 doc

/-- Coordinate space of a whole document. -/
def docTokens (doc : PMDoc) : List Token := tokensList doc

/-- The concatenated text of all text leaves (ProseMirror `textContent`). -/
def docTextContent (doc : PMDoc) : List Char :=
  ((docLeaves doc).map Prod.snd).flatten

/-- The tokens of the document between positions `a` (inclusive) and `b`
(exclusive). -/
def docSlice (doc : PMDoc) (a b : Nat) : List Token :=
  ((docTokens doc).drop a).take (b - a)

/-- JavaScript `String.prototype.indexOf`: index of the first occurrence
of `pat` in `hay`, `none` when there is none.  `indexOf` of the empty
pattern is `some 0`. -/
def strIndexOf (hay pat : List Char) : Option Nat :=
  if pat.isPrefixOf hay then some 0
  else
    match hay with
    | [] => none
    | _ :: t => (strIndexOf t pat).map (· + 1)

/-- Correctness of the boolean prefix test, as an existential split. -/
theorem isPrefixOf_exists (p l : List Char) :
    p.isPrefixOf l = true ↔ ∃ t, p ++ t = l :=
  List.isPrefixOf_iff_prefix

/-- A `{start, end}` character-offset pair in document coordinate space
(`stop` models the `end` field). -/
structure Position where
  start : Nat
  stop : Nat
  deriving DecidableEq, Repr

mutual

/-- The `doc.nodesBetween` traversal inside `findPositionsInDoc`
(`lib/editor/suggestions.tsx`): the callback fires on every descendant in
document order; on a non-empty text node it computes `indexOf` and, on a
hit, overwrites the accumulator with that occurrence's positions.
Returning `false` from a ProseMirror `nodesBetween` callback only prunes
the node's children — it does not abort the traversal — so later siblings
are still visited. -/
def visitNode (searchText : List Char) (acc : Option Position) (pos : Nat) :
    PMNode → Option Position
  | .text s =>
    if s.isEmpty then acc
    else
      match strIndexOf s searchText with
      | some i => some ⟨pos + i, pos + i + searchText.length⟩
      | none => acc
  | .block cs => visitList searchText acc (pos + 1) cs

/-- Traversal of a fragment: each child is visited, then its siblings,
threading the accumulator. -/
def visitList (searchText : List Char) (acc : Option Position) (pos : Nat) :
    List PMNode → Option Position
  | [] => acc
  | n :: ns => visitList searchText (visitNode searchText acc pos n) (pos + n.size) ns

end

/-- Embeds `findPositionsInDoc` (`lib/editor/suggestions.tsx`): scans the text
nodes of `doc` via `nodesBetween` and returns the positions recorded by
the callback, or `null`. -/
def findPositionsInDoc (doc : PMDoc) (searchText : List Char) : Option Position :=
  visitList searchText none 0 doc

/-- A stored suggestion (`lib/db/schema.ts`), text fields as `List Char`. -/
structure Suggestion where
  id : String
  documentId : String
  documentCreatedAt : Nat
  originalText : List Char
  suggestedText : List Char
  description : List Char
  isResolved : Bool
  userId : String
  createdAt : Nat
  deriving DecidableEq, Repr

/-- A suggestion extended with UI selection positions
(`lib/editor/suggestions.tsx`). -/
structure UISuggestion extends Suggestion where
  selectionStart : Nat
  selectionEnd : Nat
  deriving DecidableEq, Repr

/-- Embeds `projectWithPositions` (`lib/editor/suggestions.tsx`): for each
suggestion, resolve `originalText` via `findPositionsInDoc`; on failure
fall back to the zero-length anchor `(0, 0)`. -/
def projectWithPositions (doc : PMDoc) (suggestions : List Suggestion) :
    List UISuggestion :=
  suggestions.map fun s =>
    match findPositionsInDoc doc s.originalText with
    | none => { toSuggestion := s, selectionStart := 0, selectionEnd := 0 }
    | some p => { toSuggestion := s, selectionStart := p.start, selectionEnd := p.stop }

/-! ### Specification-side views of the position scan -/

/-- One callback step of the scan on a text leaf, as the code performs it:
empty text nodes are skipped, a hit overwrites the accumulator. -/
def leafStep (searchText : List Char) (acc : Option Position)
    (pt : Nat × List Char) : Option Position :=
  if pt.2.isEmpty then acc
  else
    match strIndexOf pt.2 searchText with
    | some i => some ⟨pt.1 + i, pt.1 + i + searchText.length⟩
    | none => acc

/-- Folding the callback over a list of text leaves. -/
def leafScan (searchText : List Char) : Option Position → List (Nat × List Char) → Option Position
  | acc, [] => acc
  | acc, pt :: l => leafScan searchText (leafStep searchText acc pt) l

/-- Whether a text leaf is non-empty and contains the search string. -/
def leafHitB (searchText : List Char) (pt : Nat × List Char) : Bool :=
  !pt.2.isEmpty && (strIndexOf pt.2 searchText).isSome

/-- The text leaves of the document that contain the search string. -/
def leafHits (doc : PMDoc) (searchText : List Char) : List (Nat × List Char) :=
  (docLeaves doc).filter (leafHitB searchText)

/-- The positions of the first occurrence of `searchText` inside the text
leaf `pt`, in document coordinates. -/
def posOf (searchText : List Char) (pt : Nat × List Char) : Option Position :=
  (strIndexOf pt.2 searchText).map fun i =>
    ⟨pt.1 + i, pt.1 + i + searchText.length⟩

/-- Whether some non-empty text leaf of the document contains the string. -/
def leafContains (doc : PMDoc) (searchText : List Char) : Bool :=
  (docLeaves doc).any (leafHitB searchText)

/-! ### Lemmas about the scan -/

theorem leafScan_append (st : List Char) (l₁ l₂ : List (Nat × List Char)) :
    ∀ acc, leafScan st acc (l₁ ++ l₂) = leafScan st (leafScan st acc l₁) l₂ := by
  induction l₁ with
  | nil => intro acc; rfl
  | cons pt l ih =>
    intro acc
    simp only [List.cons_append, leafScan]
    exact ih _

mutual

theorem visitNode_eq_scan (st : List Char) (n : PMNode) :
    ∀ acc pos, visitNode st acc pos n = leafScan st acc (n.leavesAt pos) := by
  cases n with
  | text s =>
    intro acc pos
    simp only [visitNode, PMNode.leavesAt, leafScan, leafStep]
  | block cs =>
    intro acc pos
    simp only [visitNode, PMNode.leavesAt]
    exact visitList_eq_scan st cs acc (pos + 1)

theorem visitList_eq_scan (st : List Char) (ns : List PMNode) :
    ∀ acc pos, visitList st acc pos ns = leafScan st acc (leavesListAt pos ns) := by
  cases ns with
  | nil => intro acc pos; rfl
  | cons n ns' =>
    intro acc pos
    simp only [visitList, leavesListAt, leafScan_append]
    rw [visitNode_eq_scan st n acc pos]
    exact visitList_eq_scan st ns' _ _

end

theorem leafStep_of_hit (st : List Char) (acc : Option Position)
    (pt : Nat × List Char) (h : leafHitB st pt = true) :
    leafStep st acc pt = posOf st pt := by
  unfold leafStep
  cases hemp : pt.2.isEmpty with
  | true => unfold leafHitB at h; rw [hemp] at h; simp at h
  | false =>
    cases hidx : strIndexOf pt.2 st with
    | none => unfold leafHitB at h; rw [hemp, hidx] at h; simp at h
    | some i => unfold posOf; rw [hidx]; simp

theorem leafStep_of_miss (st : List Char) (acc : Option Position)
    (pt : Nat × List Char) (h : leafHitB st pt = false) :
    leafStep st acc pt = acc := by
  unfold leafStep
  cases hemp : pt.2.isEmpty with
  | true => simp
  | false =>
    cases hidx : strIndexOf pt.2 st with
    | none => simp
    | some i =>
      exfalso
      unfold leafHitB at h
      rw [hemp, hidx] at h
      simp at h

theorem leafScan_of_no_hit (st : List Char) (l : List (Nat × List Char))
    (h : l.filter (leafHitB st) = []) :
    ∀ acc, leafScan st acc l = acc := by
  induction l with
  | nil => intro acc; rfl
  | cons pt l ih =>
    intro acc
    simp only [List.filter_cons] at h
    cases hhit : leafHitB st pt with
    | true => rw [hhit] at h; simp at h
    | false =>
      rw [hhit] at h
      simp only [Bool.false_eq_true, if_false] at h
      simp only [leafScan]
      rw [leafStep_of_miss st acc pt hhit]
      exact ih h acc

theorem leafScan_of_lastHit (st : List Char) (l : List (Nat × List Char))
    (pt : Nat × List Char) (h : (l.filter (leafHitB st)).getLast? = some pt) :
    ∀ acc, leafScan st acc l = posOf st pt := by
  induction l with
  | nil => simp at h
  | cons q l ih =>
    intro acc
    simp only [List.filter_cons] at h
    simp only [leafScan]
    cases hq : leafHitB st q with
    | false =>
      rw [hq] at h
      simp only [Bool.false_eq_true, if_false] at h
      exact ih h _
    | true =>
      rw [hq] at h
      simp only [if_true] at h
      cases hrest : l.filter (leafHitB st) with
      | nil =>
        rw [hrest, List.getLast?_singleton] at h
        injection h with h
        subst h
        rw [leafScan_of_no_hit st l hrest]
        exact leafStep_of_hit st acc q hq
      | cons r rs =>
        rw [hrest, List.getLast?_cons_cons] at h
        rw [← hrest] at h
        exact ih h _

/-- The traversal result, characterized over the document's text leaves:
the accumulator ends at the first occurrence inside the **last** hit
leaf. -/
theorem findPositionsInDoc_eq (doc : PMDoc) (st : List Char) :
    findPositionsInDoc doc st = ((leafHits doc st).getLast?).bind (posOf st) := by
  have hv : findPositionsInDoc doc st = leafScan st none (docLeaves doc) :=
    visitList_eq_scan st doc none 0
  cases hlast : (leafHits doc st).getLast? with
  | none =>
    have hnil : (docLeaves doc).filter (leafHitB st) = [] :=
      List.getLast?_eq_none_iff.mp hlast
    rw [hv, leafScan_of_no_hit st (docLeaves doc) hnil none]
    rfl
  | some pt =>
    have hsome : ((docLeaves doc).filter (leafHitB st)).getLast? = some pt := hlast
    rw [hv, leafScan_of_lastHit st (docLeaves doc) pt hsome none]
    rfl

theorem getLast?_mem {α : Type} {l : List α} {a : α} (h : l.getLast? = some a) :
    a ∈ l := by
  induction l with
  | nil => simp at h
  | cons b l ih =>
    cases l with
    | nil =>
      rw [List.getLast?_singleton] at h
      injection h with h
      exact h ▸ List.mem_singleton_self b
    | cons c l' =>
      rw [List.getLast?_cons_cons] at h
      exact List.mem_cons_of_mem b (ih h)

theorem posOf_of_hit (st : List Char) (pt : Nat × List Char)
    (h : leafHitB st pt = true) :
    ∃ i, strIndexOf pt.2 st = some i ∧
      posOf st pt = some ⟨pt.1 + i, pt.1 + i + st.length⟩ := by
  unfold leafHitB at h
  cases hidx : strIndexOf pt.2 st with
  | none => rw [hidx] at h; simp at h
  | some i =>
    refine ⟨i, rfl, ?_⟩
    unfold posOf
    rw [hidx]
    rfl

/-- C1 (amended): `findPositionsInDoc` does not return the first
occurrence in document order: the traversal callback's `return false` only
prunes children in ProseMirror, so a later matching leaf overwrites an
earlier one.  The function returns the first occurrence inside the **last**
non-empty text leaf containing the search string, and returns `null`
exactly when no non-empty text leaf contains it. -/
theorem findPositionsInDoc_last_hit_spec (doc : PMDoc) (st : List Char) :
    findPositionsInDoc doc st = ((leafHits doc st).getLast?).bind (posOf st) ∧
    (findPositionsInDoc doc st = none ↔
      ∀ pt ∈ docLeaves doc, leafHitB st pt = false) := by
  refine ⟨findPositionsInDoc_eq doc st, ?_⟩
  rw [findPositionsInDoc_eq doc st]
  constructor
  · intro h pt hpt
    cases hlast : (leafHits doc st).getLast? with
    | none =>
      have hnil : (docLeaves doc).filter (leafHitB st) = [] :=
        List.getLast?_eq_none_iff.mp hlast
      by_contra hne
      have htrue : leafHitB st pt = true := by
        revert hne; cases leafHitB st pt <;> simp
      have hmem : pt ∈ (docLeaves doc).filter (leafHitB st) :=
        List.mem_filter.mpr ⟨hpt, htrue⟩
      rw [hnil] at hmem
      simp at hmem
    | some q =>
      exfalso
      have hmemq : q ∈ leafHits doc st := getLast?_mem hlast
      have hq : leafHitB st q = true := (List.mem_filter.mp hmemq).2
      obtain ⟨i, _, hpos⟩ := posOf_of_hit st q hq
      rw [hlast] at h
      simp only [Option.bind] at h
      rw [hpos] at h
      exact Option.noConfusion h
  · intro hall
    have hnil : leafHits doc st = [] := by
      unfold leafHits
      refine List.filter_eq_nil_iff.mpr ?_
      intro pt hpt
      rw [hall pt hpt]
      simp
    rw [hnil]
    rfl

/-- The document used to refute the first-occurrence reading of C1: the
string `"ab"` occurs in two text leaves. -/
def cexDoc : PMDoc :=
  [PMNode.block [PMNode.text "ab".toList], PMNode.block [PMNode.text "ab".toList]]

/-- C1 counterexample: In `cexDoc` the search string `"ab"` occurs in
the earliest text leaf, at positions `{start := 1, stop := 3}`, yet
`findPositionsInDoc` returns the occurrence in the *last* leaf,
`{start := 5, stop := 7}` — refuting "the occurrence in the earliest leaf
wins". -/
theorem findPositionsInDoc_not_first_occurrence :
    (1, "ab".toList) ∈ docLeaves cexDoc ∧
    strIndexOf "ab".toList "ab".toList = some 0 ∧
    findPositionsInDoc cexDoc "ab".toList = some ⟨5, 7⟩ ∧
    findPositionsInDoc cexDoc "ab".toList ≠ some ⟨1, 3⟩ := by
  decide

/-! ### `strIndexOf` as a substring split -/

theorem strIndexOf_some_split (pat : List Char) :
    ∀ (hay : List Char) (i : Nat), strIndexOf hay pat = some i →
      ∃ u v, hay = u ++ pat ++ v ∧ u.length = i := by
  intro hay
  induction hay with
  | nil =>
    intro i h
    unfold strIndexOf at h
    cases hpre : pat.isPrefixOf ([] : List Char) with
    | true =>
      rw [hpre] at h
      simp only [if_true] at h
      injection h with h
      obtain ⟨v, hv⟩ := (isPrefixOf_exists pat _).mp hpre
      exact ⟨[], v, by rw [List.nil_append, hv], h⟩
    | false =>
      rw [hpre] at h
      simp at h
  | cons c t ih =>
    intro i h
    unfold strIndexOf at h
    cases hpre : pat.isPrefixOf (c :: t) with
    | true =>
      rw [hpre] at h
      simp only [if_true] at h
      injection h with h
      obtain ⟨v, hv⟩ := (isPrefixOf_exists pat _).mp hpre
      exact ⟨[], v, by rw [List.nil_append, hv], h⟩
    | false =>
      rw [hpre] at h
      simp only [Bool.false_eq_true, if_false] at h
      obtain ⟨j, hj, hij⟩ := Option.map_eq_some'.mp h
      obtain ⟨u, v, huv, hu⟩ := ih j hj
      refine ⟨c :: u, v, ?_, ?_⟩
      · rw [List.cons_append, List.cons_append, ← huv]
      · rw [List.length_cons, hu, hij]

theorem strIndexOf_isSome_of_split (pat : List Char) :
    ∀ (u v : List Char), (strIndexOf (u ++ pat ++ v) pat).isSome = true := by
  intro u
  induction u with
  | nil =>
    intro v
    unfold strIndexOf
    have hpre : pat.isPrefixOf ([] ++ pat ++ v) = true := by
      rw [List.nil_append]
      exact (isPrefixOf_exists pat _).mpr ⟨v, rfl⟩
    rw [hpre]
    simp
  | cons c u' ih =>
    intro v
    unfold strIndexOf
    cases hpre : pat.isPrefixOf (c :: u' ++ pat ++ v) with
    | true => simp
    | false =>
      simp only [Bool.false_eq_true, if_false]
      show (Option.map (fun x => x + 1) (strIndexOf (u' ++ pat ++ v) pat)).isSome = true
      cases hrec : strIndexOf (u' ++ pat ++ v) pat with
      | none =>
        have := ih v
        rw [hrec] at this
        simp at this
      | some j =>
        rfl

/-! ### Leaf positions agree with the coordinate space -/

mutual

theorem tokens_length (n : PMNode) : n.tokens.length = n.size := by
  cases n with
  | text s => simp [PMNode.tokens, PMNode.size]
  | block cs =>
    simp only [PMNode.tokens, PMNode.size, List.length_cons, List.length_append]
    rw [tokensList_length cs]
    simp
    omega

theorem tokensList_length (ns : List PMNode) : (tokensList ns).length = sizeList ns := by
  cases ns with
  | nil => rfl
  | cons n ns' =>
    simp only [tokensList, sizeList, List.length_append]
    rw [tokens_length n, tokensList_length ns']

end

mutual

theorem leaves_tokens_split (n : PMNode) :
    ∀ pos pt, pt ∈ n.leavesAt pos →
      ∃ a b, n.tokens = a ++ pt.2.map Token.chr ++ b ∧ pt.1 = pos + a.length := by
  cases n with
  | text s =>
    intro pos pt hpt
    simp only [PMNode.leavesAt, List.mem_singleton] at hpt
    subst hpt
    exact ⟨[], [], by simp [PMNode.tokens], by simp⟩
  | block cs =>
    intro pos pt hpt
    simp only [PMNode.leavesAt] at hpt
    obtain ⟨a, b, hab, hp⟩ := leavesList_tokens_split cs (pos + 1) pt hpt
    refine ⟨Token.gap :: a, b ++ [Token.gap], ?_, ?_⟩
    · simp only [PMNode.tokens, hab]
      simp [List.append_assoc]
    · simp only [List.length_cons, hp]
      omega

theorem leavesList_tokens_split (ns : List PMNode) :
    ∀ pos pt, pt ∈ leavesListAt pos ns →
      ∃ a b, tokensList ns = a ++ pt.2.map Token.chr ++ b ∧ pt.1 = pos + a.length := by
  cases ns with
  | nil => intro pos pt hpt; simp [leavesListAt] at hpt
  | cons n ns' =>
    intro pos pt hpt
    simp only [leavesListAt, List.mem_append] at hpt
    cases hpt with
    | inl h =>
      obtain ⟨a, b, hab, hp⟩ := leaves_tokens_split n pos pt h
      refine ⟨a, b ++ tokensList ns', ?_, hp⟩
      simp only [tokensList, hab]
      simp [List.append_assoc]
    | inr h =>
      obtain ⟨a, b, hab, hp⟩ := leavesList_tokens_split ns' (pos + n.size) pt h
      refine ⟨n.tokens ++ a, b, ?_, ?_⟩
      · simp only [tokensList, hab]
        simp [List.append_assoc]
      · rw [List.length_append, tokens_length n]
        omega

end

/-- The document tokens between the positions of a within-leaf occurrence
are exactly the characters of the search string. -/
theorem docSlice_of_leaf_occurrence (doc : PMDoc) (pt : Nat × List Char)
    (st : List Char) (i : Nat) (hmem : pt ∈ docLeaves doc)
    (hidx : strIndexOf pt.2 st = some i) :
    docSlice doc (pt.1 + i) (pt.1 + i + st.length) = st.map Token.chr := by
  obtain ⟨a, b, hab, hp⟩ := leavesList_tokens_split doc 0 pt hmem
  obtain ⟨u, v, huv, hu⟩ := strIndexOf_some_split st pt.2 i hidx
  unfold docSlice docTokens
  rw [hab, huv]
  have h1 : a ++ (u ++ st ++ v).map Token.chr ++ b
      = (a ++ u.map Token.chr) ++ (st.map Token.chr ++ (v.map Token.chr ++ b)) := by
    simp [List.map_append, List.append_assoc]
  rw [h1]
  have hlen : (a ++ u.map Token.chr).length = pt.1 + i := by
    simp only [List.length_append, List.length_map]
    omega
  have hsub : pt.1 + i + st.length - (pt.1 + i) = st.length := by omega
  rw [hsub]
  rw [← hlen, List.drop_left]
  have hl2 : (st.map Token.chr).length = st.length := by simp
  rw [← hl2, List.take_left]

/-- C2 (amended): Projecting a single suggestion keeps it (one output,
all stored fields unchanged).  When no non-empty text leaf of the document
contains `originalText`, the projection anchors at
`selectionStart = selectionEnd = 0` — even if `originalText` does occur in
the document's concatenated text across leaf boundaries.  When some text
leaf contains a non-empty `originalText`, the anchor satisfies
`selectionStart < selectionEnd` and the document tokens over that range
are exactly `originalText`. -/
theorem projectWithPositions_spec (d : PMDoc) (s : Suggestion) :
    ∃ u : UISuggestion,
      projectWithPositions d [s] = [u] ∧
      u.toSuggestion = s ∧
      (leafContains d s.originalText = false →
        u.selectionStart = 0 ∧ u.selectionEnd = 0) ∧
      (s.originalText ≠ [] → leafContains d s.originalText = true →
        u.selectionStart < u.selectionEnd ∧
        docSlice d u.selectionStart u.selectionEnd = s.originalText.map Token.chr) := by
  cases hfind : findPositionsInDoc d s.originalText with
  | none =>
    refine ⟨{ toSuggestion := s, selectionStart := 0, selectionEnd := 0 },
      ?_, rfl, fun _ => ⟨rfl, rfl⟩, ?_⟩
    · unfold projectWithPositions
      simp [hfind]
    · intro hne hcont
      exfalso
      unfold leafContains at hcont
      obtain ⟨pt, hpt, hhit⟩ := List.any_eq_true.mp hcont
      have hmiss := ((findPositionsInDoc_last_hit_spec d s.originalText).2.mp hfind) pt hpt
      rw [hmiss] at hhit
      exact Bool.noConfusion hhit
  | some p =>
    have hchar := findPositionsInDoc_eq d s.originalText
    rw [hfind] at hchar
    cases hlast : (leafHits d s.originalText).getLast? with
    | none => rw [hlast] at hchar; exact absurd hchar.symm (by simp)
    | some pt =>
      rw [hlast] at hchar
      have hmemf : pt ∈ leafHits d s.originalText := getLast?_mem hlast
      have hhit : leafHitB s.originalText pt = true := (List.mem_filter.mp hmemf).2
      have hmem : pt ∈ docLeaves d := (List.mem_filter.mp hmemf).1
      obtain ⟨i, hidx, hpos⟩ := posOf_of_hit s.originalText pt hhit
      have hp : p = ⟨pt.1 + i, pt.1 + i + s.originalText.length⟩ := by
        rw [Option.some_bind, hpos] at hchar
        injection hchar with hchar
      refine ⟨{ toSuggestion := s, selectionStart := p.start, selectionEnd := p.stop },
        ?_, rfl, ?_, ?_⟩
      · unfold projectWithPositions
        simp [hfind]
      · intro hcf
        exfalso
        have hany : (docLeaves d).any (leafHitB s.originalText) = true :=
          List.any_eq_true.mpr ⟨pt, hmem, hhit⟩
        unfold leafContains at hcf
        rw [hcf] at hany
        exact Bool.noConfusion hany
      · intro hne _
        subst hp
        refine ⟨?_, ?_⟩
        · show pt.1 + i < pt.1 + i + s.originalText.length
          have hlen : s.originalText.length ≠ 0 := by
            intro h0
            exact hne (List.length_eq_zero.mp h0)
          omega
        · exact docSlice_of_leaf_occurrence d pt s.originalText i hmem hidx

/-- Document whose concatenated text contains `"bc"`, though no single
text leaf does (the two leaves are `"ab"` and `"cd"`). -/
def cexDoc2 : PMDoc :=
  [PMNode.block [PMNode.text "ab".toList, PMNode.text "cd".toList]]

/-- The suggestion projected in the C2 counterexample. -/
def cexSuggestion : Suggestion :=
  { id := "s1", documentId := "d1", documentCreatedAt := 0,
    originalText := "bc".toList, suggestedText := "xy".toList,
    description := [], isResolved := false, userId := "u1", createdAt := 0 }

/-- C2 counterexample: `originalText = "bc"` is present verbatim in the
document's text (`"abcd"`), yet projection yields
`selectionStart = selectionEnd = 0`, refuting "present in D implies
`selectionStart < selectionEnd`". -/
theorem projectWithPositions_present_not_anchored :
    (strIndexOf (docTextContent cexDoc2) cexSuggestion.originalText).isSome = true ∧
    projectWithPositions cexDoc2 [cexSuggestion] =
      [{ toSuggestion := cexSuggestion, selectionStart := 0, selectionEnd := 0 }] := by
  decide

/-- Concrete document and suggestion exercising the found branch of C2. -/
def w2Doc : PMDoc := [PMNode.block [PMNode.text "hello world".toList]]

/-- Suggestion whose `originalText` occurs in a text leaf of `w2Doc`. -/
def w2Sugg : Suggestion :=
  { id := "s2", documentId := "d2", documentCreatedAt := 0,
    originalText := "world".toList, suggestedText := "globe".toList,
    description := [], isResolved := false, userId := "u2", createdAt := 0 }

/-- Suggestion absent from `w2Doc` (exercising the fallback branch). -/
def w2SuggMissing : Suggestion :=
  { id := "s3", documentId := "d2", documentCreatedAt := 0,
    originalText := "mars".toList, suggestedText := "venus".toList,
    description := [], isResolved := false, userId := "u2", createdAt := 0 }

/-- Witness for `projectWithPositions_spec`: both branches instantiated on
concrete inputs, hypotheses discharged by evaluation. -/
theorem projectWithPositions_spec_witness :
    (∃ u : UISuggestion,
      projectWithPositions w2Doc [w2Sugg] = [u] ∧
      u.toSuggestion = w2Sugg ∧
      u.selectionStart < u.selectionEnd ∧
      docSlice w2Doc u.selectionStart u.selectionEnd
        = w2Sugg.originalText.map Token.chr) ∧
    (∃ u : UISuggestion,
      projectWithPositions w2Doc [w2SuggMissing] = [u] ∧
      u.selectionStart = 0 ∧ u.selectionEnd = 0) := by
  constructor
  · obtain ⟨u, h1, h2, _, h4⟩ := projectWithPositions_spec w2Doc w2Sugg
    obtain ⟨h5, h6⟩ := h4 (by decide) (by decide)
    exact ⟨u, h1, h2, h5, h6⟩
  · obtain ⟨u, h1, _, h3, _⟩ := projectWithPositions_spec w2Doc w2SuggMissing
    obtain ⟨h5, h6⟩ := h3 (by decide)
    exact ⟨u, h1, h5, h6⟩

/-! ## Document content codec

`buildContentFromDocument` serializes the structured editor document to
markdown; `buildDocumentFromContent` renders markdown back and parses the
result into the structured schema (`lib/editor/functions.tsx`).  The
concrete serializer (`prosemirror-markdown`) and renderer (the `Markdown`
component) are external collaborators not present under `src/`, so the
codec below is modelled from the spec: a deterministic markdown
serialization of documents built from headings, paragraphs,
ordered/unordered lists, inline code and fenced code blocks, and a
rendering-then-parsing decoder for the same fragment. -/

/-- Inline content of a textblock: plain text or code-marked text. -/
inductive Inline where
  | str (s : List Char)
  | code (s : List Char)
  deriving DecidableEq, Repr

/-- A block of the structured document schema reachable through normal
editing: heading, paragraph, fenced code block, bullet list, ordered
list (list items are single textblocks). -/
inductive Block where
  | heading (level : Nat) (content : List Inline)
  | para (content : List Inline)
  | codeBlock (lines : List (List Char))
  | bulletList (items : List (List Inline))
  | orderedList (items : List (List Inline))
  deriving DecidableEq, Repr

/-- The backtick character. -/
def btick : Char := Char.ofNat 96

/-- A fence line opening or closing a code block. -/
def fenceLine : List Char := [btick, btick, btick]

/-- Markdown rendering of inline content: code spans are wrapped in
backticks. -/
def renderInline : List Inline → List Char
  | [] => []
  | .str s :: rest => s ++ renderInline rest
  | .code s :: rest => btick :: (s ++ btick :: renderInline rest)

/-- Decimal digit characters of a positive number (most significant
first). -/
def natChars (n : Nat) : List Char :=
  (Nat.digits 10 n).reverse.map Nat.digitChar

/-- Lines of the items of an ordered list, numbered from `k`. -/
def orderedLines (k : Nat) : List (List Inline) → List (List Char)
  | [] => []
  | it :: rest => (natChars k ++ '.' :: ' ' :: renderInline it) :: orderedLines (k + 1) rest

/-- Lines of one serialized block. -/
def encodeBlock : Block → List (List Char)
  | .heading n xs => [List.replicate n '#' ++ ' ' :: renderInline xs]
  | .para xs => [renderInline xs]
  | .codeBlock ls => fenceLine :: (ls ++ [fenceLine])
  | .bulletList items => items.map fun it => '-' :: ' ' :: renderInline it
  | .orderedList items => orderedLines 1 items

/-- Serialized lines of a document: each block followed by a blank
separator line. -/
def encodeLines : List Block → List (List Char)
  | [] => []
  | b :: bs => encodeBlock b ++ ([] :: encodeLines bs)

/-- Join lines with newline characters. -/
def joinLines : List (List Char) → List Char
  | [] => []
  | [l] => l
  | l :: ls => l ++ '\n' :: joinLines ls

/-- Split a character stream at newline characters (inverse of
`joinLines` for newline-free lines). -/
def splitLines : List Char → List (List Char)
  | [] => [[]]
  | c :: rest =>
    if c = '\n' then [] :: splitLines rest
    else
      match splitLines rest with
      | [] => [[c]]
      | l :: ls => (c :: l) :: ls

/-- Modelled from the spec: `buildContentFromDocument`
(`lib/editor/functions.tsx`) — deterministic serialization of the
structured tree to a portable markup string, here over the spec's block
fragment; the concrete `prosemirror-markdown` serializer is an external
collaborator absent from `src/`. -/
def buildContentFromDocument (d : List Block) : List Char :=
  joinLines (encodeLines d)

/-- A `dropWhile` never lengthens a list. -/
theorem dropWhile_length_le {a : Type} (p : a → Bool) (l : List a) :
    (l.dropWhile p).length ≤ l.length := by
  induction l with
  | nil => simp
  | cons x xs ih =>
    rw [List.dropWhile_cons]
    cases hp : p x with
    | true =>
      rw [if_pos rfl, List.length_cons]
      omega
    | false => simp

theorem parseInline_dec1 (c : Char) (cs : List Char) :
    ((cs.dropWhile fun x => x != btick).drop 1).length < (c :: cs).length := by
  have h1 := dropWhile_length_le (fun x => x != btick) cs
  simp only [List.length_cons, List.length_drop]
  omega

theorem parseInline_dec2 (c : Char) (cs : List Char) :
    (cs.dropWhile fun x => x != btick).length < (c :: cs).length := by
  have h1 := dropWhile_length_le (fun x => x != btick) cs
  simp only [List.length_cons]
  omega

/-- Inline markdown parsing: alternating plain-text and backtick-delimited
code chunks. -/
def parseInline : List Char → List Inline
  | [] => []
  | c :: cs =>
    if c = btick then
      Inline.code (cs.takeWhile fun x => x != btick)
        :: parseInline ((cs.dropWhile fun x => x != btick).drop 1)
    else
      Inline.str (c :: cs.takeWhile fun x => x != btick)
        :: parseInline (cs.dropWhile fun x => x != btick)
  termination_by l => l.length
  decreasing_by
  all_goals
    first
      | apply parseInline_dec1
      | apply parseInline_dec2

/-- Whether a line is exactly a code fence. -/
def isFence (l : List Char) : Bool := decide (l = fenceLine)

/-- Heading recognition: leading `#`s followed by one space; yields the
level and the remainder of the line. -/
def headingLevelOf (l : List Char) : Option (Nat × List Char) :=
  let hs := l.takeWhile fun c => c == '#'
  if hs.isEmpty then none
  else
    match l.dropWhile fun c => c == '#' with
    | ' ' :: rest => some (hs.length, rest)
    | _ => none

/-- Bullet list item recognition (`- ` prefix). -/
def isBulletLine : List Char → Bool
  | c1 :: c2 :: _ => c1 == '-' && c2 == ' '
  | _ => false

/-- Content of a bullet item line. -/
def stripBullet (l : List Char) : List Char := l.drop 2

/-- Ordered list item recognition: one or more digits, then `. `. -/
def isOrderedLine (l : List Char) : Bool :=
  !(l.takeWhile Char.isDigit).isEmpty &&
    match l.dropWhile Char.isDigit with
    | c1 :: c2 :: _ => c1 == '.' && c2 == ' '
    | _ => false

/-- Content of an ordered item line. -/
def stripOrdered (l : List Char) : List Char :=
  (l.dropWhile Char.isDigit).drop 2

/-- Code block body: the lines before the closing fence, and the lines
after it. -/
def takeCode : List (List Char) → List (List Char) × List (List Char)
  | [] => ([], [])
  | l :: rest =>
    if isFence l then ([], rest)
    else
      let p := takeCode rest
      (l :: p.1, p.2)

theorem takeCode_rest_length (ls : List (List Char)) :
    (takeCode ls).2.length ≤ ls.length := by
  induction ls with
  | nil => simp [takeCode]
  | cons l rest ih =>
    simp only [takeCode]
    cases hf : isFence l with
    | true => simp
    | false => simp only [Bool.false_eq_true, if_false, List.length_cons]; omega

/-- Block-level markdown parsing of a line sequence: blank lines separate
blocks; fences open code blocks; `#`, `- ` and `1. ` prefixes open
headings and lists; anything else is a paragraph. -/
def parseBlocks : List (List Char) → List Block
  | [] => []
  | l :: ls =>
    if l.isEmpty then parseBlocks ls
    else if isFence l then
      Block.codeBlock (takeCode ls).1 :: parseBlocks (takeCode ls).2
    else
      match headingLevelOf l with
      | some nl => Block.heading nl.1 (parseInline nl.2) :: parseBlocks ls
      | none =>
        if isBulletLine l then
          Block.bulletList
              (((l :: ls).takeWhile isBulletLine).map fun x => parseInline (stripBullet x))
            :: parseBlocks ((l :: ls).dropWhile isBulletLine)
        else if isOrderedLine l then
          Block.orderedList
              (((l :: ls).takeWhile isOrderedLine).map fun x => parseInline (stripOrdered x))
            :: parseBlocks ((l :: ls).dropWhile isOrderedLine)
        else Block.para (parseInline l) :: parseBlocks ls
  termination_by ls => ls.length
  decreasing_by
  all_goals
    first
      | (simp only [List.length_cons]; omega)
      | (have h2 := takeCode_rest_length ls
         simp only [List.length_cons]
         omega)
      | (rw [List.dropWhile_cons]
         rename_i hcond
         rw [hcond, if_pos rfl]
         have h2 := dropWhile_length_le isBulletLine ls
         simp only [List.length_cons]
         omega)
      | (rw [List.dropWhile_cons]
         rename_i hcond
         rw [hcond, if_pos rfl]
         have h2 := dropWhile_length_le isOrderedLine ls
         simp only [List.length_cons]
         omega)

/-- Modelled from the spec: `buildDocumentFromContent`
(`lib/editor/functions.tsx`) — renders the markup and parses the result
back into the structured schema; the concrete renderer (the `Markdown`
component, absent from `src/`) and DOM parser are external
collaborators. -/
def buildDocumentFromContent (content : List Char) : List Block :=
  parseBlocks (splitLines content)

/-! ### Documents reachable through normal editing

The round-trip property is stated for documents the editor can produce:
inline text is non-empty, free of backticks and newlines, with no two
adjacent plain-text chunks; paragraph lines do not collide with block
markers (the editor's input rules convert such prefixes into the
corresponding blocks); code blocks contain no fence line; lists are
non-empty. -/

/-- Constraints on one inline chunk. -/
def chunkOK : Inline → Bool
  | .str s => !s.isEmpty && s.all fun c => c != btick && c != '\n'
  | .code s => s.all fun c => c != btick && c != '\n'

/-- Whether a sequence does not start with a plain-text chunk. -/
def headNotStr : List Inline → Bool
  | .str _ :: _ => false
  | _ => true

/-- No two adjacent plain-text chunks (the parser produces maximal text
runs). -/
def noAdjacentStr : List Inline → Bool
  | [] => true
  | .str _ :: rest => headNotStr rest && noAdjacentStr rest
  | .code _ :: rest => noAdjacentStr rest

/-- Well-formed inline sequence. -/
def inlineOK (xs : List Inline) : Bool := xs.all chunkOK && noAdjacentStr xs

/-- A paragraph's rendered line must not look like another block's
marker. -/
def paraLineOK (xs : List Inline) : Bool :=
  !(renderInline xs).isEmpty && !isFence (renderInline xs) &&
    (headingLevelOf (renderInline xs)).isNone &&
    !isBulletLine (renderInline xs) && !isOrderedLine (renderInline xs)

/-- Well-formed block. -/
def blockOK : Block → Bool
  | .heading n xs => decide (1 ≤ n) && decide (n ≤ 6) && inlineOK xs
  | .para xs => inlineOK xs && paraLineOK xs
  | .codeBlock ls => ls.all fun l => !isFence l && l.all fun c => c != '\n'
  | .bulletList items => !items.isEmpty && items.all inlineOK
  | .orderedList items => !items.isEmpty && items.all inlineOK

/-- Well-formed document. -/
def docOK (d : List Block) : Bool := d.all blockOK

/-! ### Inline round trip -/

theorem takeWhile_all {a : Type} (p : a → Bool) :
    ∀ s : List a, (∀ c ∈ s, p c = true) →
      s.takeWhile p = s ∧ s.dropWhile p = [] := by
  intro s
  induction s with
  | nil => intro _; exact ⟨rfl, rfl⟩
  | cons x xs ih =>
    intro h
    have hx : p x = true := h x (by simp)
    have ih' := ih fun c hc => h c (by simp [hc])
    refine ⟨?_, ?_⟩
    · simp [List.takeWhile_cons, hx, ih'.1]
    · simp [List.dropWhile_cons, hx, ih'.2]

theorem takeWhile_append_stop {a : Type} (p : a → Bool) (b : a) (r : List a)
    (hb : p b = false) :
    ∀ s : List a, (∀ c ∈ s, p c = true) →
      (s ++ b :: r).takeWhile p = s ∧ (s ++ b :: r).dropWhile p = b :: r := by
  intro s
  induction s with
  | nil =>
    intro _
    rw [List.nil_append, List.takeWhile_cons, List.dropWhile_cons, hb]
    simp
  | cons x xs ih =>
    intro h
    have hx : p x = true := h x (by simp)
    have ih' := ih fun c hc => h c (by simp [hc])
    refine ⟨?_, ?_⟩
    · rw [List.cons_append]
      simp [List.takeWhile_cons, hx, ih'.1]
    · rw [List.cons_append]
      simp [List.dropWhile_cons, hx, ih'.2]

theorem chunk_str_facts (s : List Char) (h : chunkOK (Inline.str s) = true) :
    s ≠ [] ∧ ∀ c ∈ s, (c != btick) = true ∧ (c != '\n') = true := by
  unfold chunkOK at h
  obtain ⟨h1, h2⟩ := Bool.and_eq_true_iff.mp h
  refine ⟨?_, ?_⟩
  · intro hnil
    rw [hnil] at h1
    simp at h1
  · intro c hc
    exact Bool.and_eq_true_iff.mp (List.all_eq_true.mp h2 c hc)

theorem chunk_code_facts (s : List Char) (h : chunkOK (Inline.code s) = true) :
    ∀ c ∈ s, (c != btick) = true ∧ (c != '\n') = true := by
  unfold chunkOK at h
  intro c hc
  exact Bool.and_eq_true_iff.mp (List.all_eq_true.mp h c hc)

theorem inlineOK_tail (a : Inline) (rest : List Inline)
    (h : inlineOK (a :: rest) = true) :
    chunkOK a = true ∧ rest.all chunkOK = true ∧ noAdjacentStr rest = true := by
  unfold inlineOK at h
  obtain ⟨hall, hadj⟩ := Bool.and_eq_true_iff.mp h
  refine ⟨List.all_eq_true.mp hall a (by simp), ?_, ?_⟩
  · exact List.all_eq_true.mpr fun x hx => List.all_eq_true.mp hall x (by simp [hx])
  · cases a with
    | str s =>
      unfold noAdjacentStr at hadj
      exact (Bool.and_eq_true_iff.mp hadj).2
    | code s =>
      unfold noAdjacentStr at hadj
      exact hadj

/-- Decoding inverts inline rendering on well-formed inline sequences. -/
theorem parseInline_renderInline :
    ∀ xs : List Inline, inlineOK xs = true →
      parseInline (renderInline xs) = xs := by
  intro xs
  induction xs with
  | nil => intro _; simp [renderInline, parseInline]
  | cons a rest ih =>
    intro h
    obtain ⟨hca, hrestAll, hrestAdj⟩ := inlineOK_tail a rest h
    have hrestOK : inlineOK rest = true := by
      unfold inlineOK
      rw [hrestAll, hrestAdj]
      rfl
    cases a with
    | code s =>
      have hsall : ∀ c ∈ s, (fun x => x != btick) c = true :=
        fun c hc => (chunk_code_facts s hca c hc).1
      show parseInline (btick :: (s ++ btick :: renderInline rest))
          = Inline.code s :: rest
      rw [parseInline, if_pos rfl]
      have hstop := takeWhile_append_stop (fun x => x != btick) btick
        (renderInline rest) (by simp) s hsall
      rw [hstop.1, hstop.2]
      simp only [List.drop_succ_cons, List.drop_zero]
      rw [ih hrestOK]
    | str s =>
      obtain ⟨hne, hchars⟩ := chunk_str_facts s hca
      cases s with
      | nil => exact absurd rfl hne
      | cons c s' =>
        have hc : (c != btick) = true := (hchars c (by simp)).1
        have hcne : ¬(c = btick) := bne_iff_ne.mp hc
        have hall' : ∀ x ∈ s', (fun x => x != btick) x = true :=
          fun x hx => (hchars x (by simp [hx])).1
        show parseInline ((c :: s') ++ renderInline rest)
            = Inline.str (c :: s') :: rest
        rw [List.cons_append, parseInline, if_neg hcne]
        cases rest with
        | nil =>
          simp only [renderInline, List.append_nil]
          have htw := takeWhile_all (fun x => x != btick) s' hall'
          rw [htw.1, htw.2]
          simp [parseInline]
        | cons b rest' =>
          cases b with
          | str t =>
            exfalso
            unfold inlineOK at h
            have hadj := (Bool.and_eq_true_iff.mp h).2
            unfold noAdjacentStr headNotStr at hadj
            simp at hadj
          | code t =>
            show Inline.str (c :: (s' ++ btick :: (t ++ btick :: renderInline rest')).takeWhile
                  (fun x => x != btick))
                :: parseInline ((s' ++ btick :: (t ++ btick :: renderInline rest')).dropWhile
                  (fun x => x != btick))
              = Inline.str (c :: s') :: Inline.code t :: rest'
            have hstop := takeWhile_append_stop (fun x => x != btick) btick
              (t ++ btick :: renderInline rest') (by simp) s' hall'
            rw [hstop.1, hstop.2]
            have hr : renderInline (Inline.code t :: rest')
                = btick :: (t ++ btick :: renderInline rest') := rfl
            rw [← hr, ih hrestOK]

/-! ### Line classification lemmas -/

theorem isFence_cons_ne (c : Char) (cs : List Char) (h : c ≠ btick) :
    isFence (c :: cs) = false := by
  unfold isFence fenceLine
  apply decide_eq_false
  intro heq
  exact h (by injection heq)

theorem headingLevelOf_cons_ne (c : Char) (cs : List Char)
    (h : (c == '#') = false) : headingLevelOf (c :: cs) = none := by
  simp [headingLevelOf, List.takeWhile_cons, h]

theorem isBulletLine_cons_ne (c : Char) (cs : List Char)
    (h : (c == '-') = false) : isBulletLine (c :: cs) = false := by
  cases cs with
  | nil => rfl
  | cons c2 cs' => simp [isBulletLine, h]

/-- Every digit of a positive number's decimal rendering is a digit
character. -/
theorem digitChar_isDigit : ∀ d, d < 10 → (Nat.digitChar d).isDigit = true := by
  decide

theorem natChars_digits (n : Nat) : ∀ c ∈ natChars n, c.isDigit = true := by
  unfold natChars
  intro c hc
  simp only [List.mem_map, List.mem_reverse] at hc
  obtain ⟨d, hd, rfl⟩ := hc
  exact digitChar_isDigit d (Nat.digits_lt_base (by omega) hd)

theorem natChars_ne_nil (n : Nat) (h : n ≠ 0) : natChars n ≠ [] := by
  unfold natChars
  simp only [ne_eq, List.map_eq_nil_iff, List.reverse_eq_nil_iff]
  exact Nat.digits_ne_nil_iff_ne_zero.mpr h

theorem isDigit_markers (c : Char) (h : c.isDigit = true) :
    (c == '#') = false ∧ (c == '-') = false ∧ c ≠ btick ∧ (c != '\n') = true := by
  refine ⟨?_, ?_, ?_, ?_⟩
  · apply beq_eq_false_iff_ne.mpr
    intro heq
    subst heq
    exact absurd h (by decide)
  · apply beq_eq_false_iff_ne.mpr
    intro heq
    subst heq
    exact absurd h (by decide)
  · intro heq
    subst heq
    exact absurd h (by decide)
  · apply bne_iff_ne.mpr
    intro heq
    subst heq
    exact absurd h (by decide)

theorem isDigit_not_dot (c : Char) (h : c = '.') : c.isDigit = false := by
  subst h
  decide

/-! ### Block-level decoding of each serialized block -/

theorem parseBlocks_blank (rest : List (List Char)) :
    parseBlocks ([] :: rest) = parseBlocks rest := by
  simp [parseBlocks]

theorem takeCode_append (ls tail : List (List Char))
    (h : ∀ l ∈ ls, isFence l = false) :
    takeCode (ls ++ fenceLine :: tail) = (ls, tail) := by
  induction ls with
  | nil =>
    rw [List.nil_append]
    unfold takeCode
    rw [show isFence fenceLine = true by decide]
    simp
  | cons l ls' ih =>
    rw [List.cons_append]
    unfold takeCode
    rw [h l (by simp)]
    simp only [Bool.false_eq_true, if_false]
    rw [ih fun x hx => h x (by simp [hx])]

/-- One unfolding step of `parseBlocks` on a non-empty line list. -/
theorem parseBlocks_cons_eq (l : List Char) (ls : List (List Char)) :
    parseBlocks (l :: ls) =
      if l.isEmpty then parseBlocks ls
      else if isFence l then
        Block.codeBlock (takeCode ls).1 :: parseBlocks (takeCode ls).2
      else
        match headingLevelOf l with
        | some nl => Block.heading nl.1 (parseInline nl.2) :: parseBlocks ls
        | none =>
          if isBulletLine l then
            Block.bulletList
                (((l :: ls).takeWhile isBulletLine).map fun x => parseInline (stripBullet x))
              :: parseBlocks ((l :: ls).dropWhile isBulletLine)
          else if isOrderedLine l then
            Block.orderedList
                (((l :: ls).takeWhile isOrderedLine).map fun x => parseInline (stripOrdered x))
              :: parseBlocks ((l :: ls).dropWhile isOrderedLine)
          else Block.para (parseInline l) :: parseBlocks ls := by
  rw [parseBlocks]

theorem map_parse_bullet (items : List (List Inline))
    (h : items.all inlineOK = true) :
    ((items.map fun it => '-' :: ' ' :: renderInline it).map
        fun x => parseInline (stripBullet x)) = items := by
  induction items with
  | nil => rfl
  | cons it rest ih =>
    simp only [List.map_cons]
    rw [show stripBullet ('-' :: ' ' :: renderInline it) = renderInline it from rfl]
    rw [parseInline_renderInline it (List.all_eq_true.mp h it (by simp))]
    rw [ih (List.all_eq_true.mpr fun x hx => List.all_eq_true.mp h x (by simp [hx]))]

theorem orderedLine_shape (k : Nat) (hk : k ≠ 0) (r : List Char) :
    isOrderedLine (natChars k ++ '.' :: ' ' :: r) = true ∧
    stripOrdered (natChars k ++ '.' :: ' ' :: r) = r := by
  have hdig := natChars_digits k
  have hstop := takeWhile_append_stop Char.isDigit '.' (' ' :: r)
    (by decide) (natChars k) hdig
  constructor
  · unfold isOrderedLine
    rw [hstop.1, hstop.2]
    cases hnc : natChars k with
    | nil => exact absurd hnc (natChars_ne_nil k hk)
    | cons d ds => simp
  · unfold stripOrdered
    rw [hstop.2]
    rfl

theorem orderedLines_all (items : List (List Inline)) :
    ∀ k, k ≠ 0 → ∀ l ∈ orderedLines k items, isOrderedLine l = true := by
  induction items with
  | nil => intro k _ l hl; simp [orderedLines] at hl
  | cons it rest ih =>
    intro k hk l hl
    simp only [orderedLines, List.mem_cons] at hl
    cases hl with
    | inl h => subst h; exact (orderedLine_shape k hk _).1
    | inr h => exact ih (k + 1) (by omega) l h

theorem orderedLines_parse (items : List (List Inline)) :
    ∀ k, k ≠ 0 → items.all inlineOK = true →
      ((orderedLines k items).map fun x => parseInline (stripOrdered x)) = items := by
  induction items with
  | nil => intro k _ _; rfl
  | cons it rest ih =>
    intro k hk hall
    simp only [orderedLines, List.map_cons]
    rw [(orderedLine_shape k hk _).2]
    rw [parseInline_renderInline it (List.all_eq_true.mp hall it (by simp))]
    rw [ih (k + 1) (by omega)
      (List.all_eq_true.mpr fun x hx => List.all_eq_true.mp hall x (by simp [hx]))]

/-- One `parseBlocks` step: heading line. -/
theorem parseBlocks_step_heading (l : List Char) (ls : List (List Char))
    (n : Nat) (r : List Char) (hne : l.isEmpty = false) (hf : isFence l = false)
    (hh : headingLevelOf l = some (n, r)) :
    parseBlocks (l :: ls) = Block.heading n (parseInline r) :: parseBlocks ls := by
  rw [parseBlocks_cons_eq, hne]
  simp only [Bool.false_eq_true, if_false]
  rw [hf]
  simp only [Bool.false_eq_true, if_false]
  rw [hh]

/-- One `parseBlocks` step: opening code fence. -/
theorem parseBlocks_step_fence (ls : List (List Char)) :
    parseBlocks (fenceLine :: ls)
      = Block.codeBlock (takeCode ls).1 :: parseBlocks (takeCode ls).2 := by
  rw [parseBlocks_cons_eq]
  rw [show fenceLine.isEmpty = false from by decide]
  simp only [Bool.false_eq_true, if_false]
  rw [show isFence fenceLine = true from by decide]
  simp only [if_true]

/-- One `parseBlocks` step: bullet item line. -/
theorem parseBlocks_step_bullet (l : List Char) (ls : List (List Char))
    (hne : l.isEmpty = false) (hf : isFence l = false)
    (hh : headingLevelOf l = none) (hbul : isBulletLine l = true) :
    parseBlocks (l :: ls)
      = Block.bulletList
            (((l :: ls).takeWhile isBulletLine).map fun x => parseInline (stripBullet x))
          :: parseBlocks ((l :: ls).dropWhile isBulletLine) := by
  rw [parseBlocks_cons_eq, hne]
  simp only [Bool.false_eq_true, if_false]
  rw [hf]
  simp only [Bool.false_eq_true, if_false]
  rw [hh]
  simp only [hbul, if_true]

/-- One `parseBlocks` step: ordered item line. -/
theorem parseBlocks_step_ordered (l : List Char) (ls : List (List Char))
    (hne : l.isEmpty = false) (hf : isFence l = false)
    (hh : headingLevelOf l = none) (hbul : isBulletLine l = false)
    (hord : isOrderedLine l = true) :
    parseBlocks (l :: ls)
      = Block.orderedList
            (((l :: ls).takeWhile isOrderedLine).map fun x => parseInline (stripOrdered x))
          :: parseBlocks ((l :: ls).dropWhile isOrderedLine) := by
  rw [parseBlocks_cons_eq, hne]
  simp only [Bool.false_eq_true, if_false]
  rw [hf]
  simp only [Bool.false_eq_true, if_false]
  rw [hh]
  simp only [hbul, hord, Bool.false_eq_true, if_false, if_true]

/-- One `parseBlocks` step: paragraph line. -/
theorem parseBlocks_step_para (l : List Char) (ls : List (List Char))
    (hne : l.isEmpty = false) (hf : isFence l = false)
    (hh : headingLevelOf l = none) (hbul : isBulletLine l = false)
    (hord : isOrderedLine l = false) :
    parseBlocks (l :: ls) = Block.para (parseInline l) :: parseBlocks ls := by
  rw [parseBlocks_cons_eq, hne]
  simp only [Bool.false_eq_true, if_false]
  rw [hf]
  simp only [Bool.false_eq_true, if_false]
  rw [hh]
  simp only [hbul, hord, Bool.false_eq_true, if_false]

/-- Decoding one serialized block followed by a blank line inverts the
encoding of that block. -/
theorem parseBlocks_encodeBlock (b : Block) (hb : blockOK b = true) :
    ∀ rest, parseBlocks (encodeBlock b ++ ([] :: rest)) = b :: parseBlocks rest := by
  cases b with
  | heading n xs =>
    intro rest
    unfold blockOK at hb
    obtain ⟨h12, hxs⟩ := Bool.and_eq_true_iff.mp hb
    obtain ⟨h1, _⟩ := Bool.and_eq_true_iff.mp h12
    have hn1 : 1 ≤ n := of_decide_eq_true h1
    cases n with
    | zero => omega
    | succ m =>
      simp only [encodeBlock, List.cons_append, List.nil_append]
      have hrep : List.replicate (m + 1) '#' ++ ' ' :: renderInline xs
          = '#' :: (List.replicate m '#' ++ ' ' :: renderInline xs) := by
        rw [List.replicate_succ, List.cons_append]
      have hempty : (List.replicate (m + 1) '#' ++ ' ' :: renderInline xs).isEmpty
          = false := by
        rw [hrep]
        rfl
      have hfence : isFence (List.replicate (m + 1) '#' ++ ' ' :: renderInline xs)
          = false := by
        rw [hrep]
        exact isFence_cons_ne '#' _ (by decide)
      have hhl : headingLevelOf (List.replicate (m + 1) '#' ++ ' ' :: renderInline xs)
          = some (m + 1, renderInline xs) := by
        unfold headingLevelOf
        have hall : ∀ c ∈ List.replicate (m + 1) '#', (c == '#') = true := by
          intro c hc
          rw [List.eq_of_mem_replicate hc]
          rfl
        have hstop := takeWhile_append_stop (fun c => c == '#') ' '
          (renderInline xs) (by decide) (List.replicate (m + 1) '#') hall
        rw [hstop.1, hstop.2]
        simp [List.length_replicate]
      rw [parseBlocks_step_heading _ _ _ _ hempty hfence hhl]
      rw [parseInline_renderInline xs hxs, parseBlocks_blank]
  | para xs =>
    intro rest
    unfold blockOK at hb
    obtain ⟨hxs, hline⟩ := Bool.and_eq_true_iff.mp hb
    unfold paraLineOK at hline
    obtain ⟨hl4, hord⟩ := Bool.and_eq_true_iff.mp hline
    obtain ⟨hl3, hbul⟩ := Bool.and_eq_true_iff.mp hl4
    obtain ⟨hl2, hhl⟩ := Bool.and_eq_true_iff.mp hl3
    obtain ⟨hne, hfence⟩ := Bool.and_eq_true_iff.mp hl2
    rw [Bool.not_eq_true' ] at hne hfence hbul hord
    simp only [encodeBlock, List.cons_append, List.nil_append]
    rw [parseBlocks_step_para _ _ hne hfence
      (Option.isNone_iff_eq_none.mp hhl) hbul hord]
    rw [parseInline_renderInline xs hxs, parseBlocks_blank]
  | codeBlock ls =>
    intro rest
    unfold blockOK at hb
    have hfences : ∀ l ∈ ls, isFence l = false := by
      intro l hl
      have hall := List.all_eq_true.mp hb l hl
      have h1 := (Bool.and_eq_true_iff.mp hall).1
      rw [Bool.not_eq_true' ] at h1
      exact h1
    simp only [encodeBlock, List.cons_append]
    rw [parseBlocks_step_fence]
    have hshape : (ls ++ [fenceLine]) ++ ([] :: rest) = ls ++ fenceLine :: ([] :: rest) := by
      simp [List.append_assoc]
    rw [hshape, takeCode_append ls ([] :: rest) hfences]
    rw [parseBlocks_blank]
  | bulletList items =>
    intro rest
    unfold blockOK at hb
    obtain ⟨hne, hall⟩ := Bool.and_eq_true_iff.mp hb
    cases items with
    | nil => simp at hne
    | cons it its =>
      simp only [encodeBlock, List.map_cons, List.cons_append]
      rw [parseBlocks_step_bullet _ _ (by rfl) (isFence_cons_ne '-' _ (by decide))
        (headingLevelOf_cons_ne '-' _ (by decide)) (by simp [isBulletLine])]
      have hstop := takeWhile_append_stop isBulletLine ([] : List Char) rest rfl
        ((it :: its).map fun x => '-' :: ' ' :: renderInline x)
        (by
          intro l hl
          simp only [List.mem_map] at hl
          obtain ⟨x, _, rfl⟩ := hl
          simp [isBulletLine])
      simp only [List.map_cons, List.cons_append] at hstop
      rw [hstop.1, hstop.2]
      have hmap := map_parse_bullet (it :: its) hall
      simp only [List.map_cons] at hmap
      simp only [List.map_cons]
      rw [hmap, parseBlocks_blank]
  | orderedList items =>
    intro rest
    unfold blockOK at hb
    obtain ⟨hne, hall⟩ := Bool.and_eq_true_iff.mp hb
    cases items with
    | nil => simp at hne
    | cons it its =>
      obtain ⟨d, ds, hnc⟩ : ∃ d ds, natChars 1 = d :: ds := by
        cases hx : natChars 1 with
        | nil => exact absurd hx (natChars_ne_nil 1 (by omega))
        | cons d ds => exact ⟨d, ds, rfl⟩
      have hddig : d.isDigit = true := natChars_digits 1 d (by rw [hnc]; simp)
      obtain ⟨hdh, hdd, hdb, _⟩ := isDigit_markers d hddig
      have hline1 : orderedLines 1 (it :: its)
          = (natChars 1 ++ '.' :: ' ' :: renderInline it) :: orderedLines 2 its := rfl
      simp only [encodeBlock, hline1, hnc, List.cons_append]
      rw [parseBlocks_step_ordered _ _ (by rfl) (isFence_cons_ne d _ hdb)
        (headingLevelOf_cons_ne d _ hdh) (isBulletLine_cons_ne d _ hdd)
        (by rw [← List.cons_append, ← hnc]; exact (orderedLine_shape 1 (by omega) _).1)]
      have hstop := takeWhile_append_stop isOrderedLine ([] : List Char) rest rfl
        (orderedLines 1 (it :: its))
        (fun l hl => orderedLines_all (it :: its) 1 (by omega) l hl)
      simp only [hline1, hnc, List.cons_append] at hstop
      rw [hstop.1, hstop.2]
      have hmap := orderedLines_parse (it :: its) 1 (by omega) hall
      simp only [hline1, hnc, List.cons_append, List.map_cons] at hmap
      simp only [List.map_cons]
      rw [hmap, parseBlocks_blank]

/-- Decoding all serialized blocks inverts the block encoding. -/
theorem parseBlocks_encodeLines (d : List Block) (h : docOK d = true) :
    parseBlocks (encodeLines d) = d := by
  induction d with
  | nil => simp [encodeLines, parseBlocks]
  | cons b bs ih =>
    have hb : blockOK b = true := List.all_eq_true.mp h b (by simp)
    have hbs : docOK bs = true :=
      List.all_eq_true.mpr fun x hx => List.all_eq_true.mp h x (by simp [hx])
    simp only [encodeLines]
    rw [parseBlocks_encodeBlock b hb (encodeLines bs), ih hbs]

/-! ### Line splitting inverts line joining -/

theorem splitLines_no_newline (l : List Char) (h : ∀ c ∈ l, c ≠ '\n') :
    splitLines l = [l] := by
  induction l with
  | nil => rfl
  | cons c cs ih =>
    unfold splitLines
    rw [if_neg (h c (by simp))]
    rw [ih fun x hx => h x (by simp [hx])]

theorem splitLines_append (l : List Char) (rest : List Char)
    (h : ∀ c ∈ l, c ≠ '\n') :
    splitLines (l ++ '\n' :: rest) = l :: splitLines rest := by
  induction l with
  | nil =>
    rw [List.nil_append]
    conv_lhs => rw [splitLines]
    rw [if_pos rfl]
  | cons c cs ih =>
    rw [List.cons_append]
    conv_lhs => rw [splitLines]
    rw [if_neg (h c (by simp))]
    rw [ih fun x hx => h x (by simp [hx])]

theorem splitLines_joinLines (ls : List (List Char)) (hne : ls ≠ [])
    (h : ∀ l ∈ ls, ∀ c ∈ l, c ≠ '\n') :
    splitLines (joinLines ls) = ls := by
  induction ls with
  | nil => exact absurd rfl hne
  | cons l ls' ih =>
    cases ls' with
    | nil =>
      rw [show joinLines [l] = l from rfl]
      exact splitLines_no_newline l (h l (by simp))
    | cons l2 ls'' =>
      rw [show joinLines (l :: l2 :: ls'') = l ++ '\n' :: joinLines (l2 :: ls'') from rfl]
      rw [splitLines_append l _ (h l (by simp))]
      rw [ih (by simp) fun x hx => h x (by simp [hx])]

/-! ### Serialized lines contain no newline characters -/

theorem renderInline_no_newline (xs : List Inline) (h : xs.all chunkOK = true) :
    ∀ c ∈ renderInline xs, c ≠ '\n' := by
  induction xs with
  | nil => intro c hc; simp [renderInline] at hc
  | cons a rest ih =>
    have hca : chunkOK a = true := List.all_eq_true.mp h a (by simp)
    have hrest : rest.all chunkOK = true :=
      List.all_eq_true.mpr fun x hx => List.all_eq_true.mp h x (by simp [hx])
    intro c hc
    cases a with
    | str s =>
      simp only [renderInline, List.mem_append] at hc
      cases hc with
      | inl h1 => exact bne_iff_ne.mp ((chunk_str_facts s hca).2 c h1).2
      | inr h1 => exact ih hrest c h1
    | code s =>
      simp only [renderInline, List.mem_cons, List.mem_append] at hc
      rcases hc with h1 | h1 | h1 | h1
      · subst h1; decide
      · exact bne_iff_ne.mp ((chunk_code_facts s hca) c h1).2
      · subst h1; decide
      · exact ih hrest c h1

theorem inlineOK_all_chunk (xs : List Inline) (h : inlineOK xs = true) :
    xs.all chunkOK = true := by
  unfold inlineOK at h
  exact (Bool.and_eq_true_iff.mp h).1

theorem orderedLines_no_newline (items : List (List Inline)) :
    ∀ k, items.all inlineOK = true →
      ∀ l ∈ orderedLines k items, ∀ c ∈ l, c ≠ '\n' := by
  induction items with
  | nil => intro k _ l hl; simp [orderedLines] at hl
  | cons it rest ih =>
    intro k hall l hl
    simp only [orderedLines, List.mem_cons] at hl
    cases hl with
    | inl h1 =>
      subst h1
      intro c hc
      simp only [List.mem_append, List.mem_cons] at hc
      rcases hc with h2 | h2 | h2 | h2
      · exact bne_iff_ne.mp (isDigit_markers c (natChars_digits k c h2)).2.2.2
      · subst h2; decide
      · subst h2; decide
      · exact renderInline_no_newline it
          (inlineOK_all_chunk it (List.all_eq_true.mp hall it (by simp))) c h2
    | inr h1 =>
      exact ih (k + 1)
        (List.all_eq_true.mpr fun x hx => List.all_eq_true.mp hall x (by simp [hx])) l h1

theorem encodeBlock_no_newline (b : Block) (hb : blockOK b = true) :
    ∀ l ∈ encodeBlock b, ∀ c ∈ l, c ≠ '\n' := by
  cases b with
  | heading n xs =>
    unfold blockOK at hb
    have hxs := (Bool.and_eq_true_iff.mp hb).2
    intro l hl c hc
    simp only [encodeBlock, List.mem_singleton] at hl
    subst hl
    simp only [List.mem_append, List.mem_cons] at hc
    rcases hc with h1 | h1 | h1
    · rw [List.eq_of_mem_replicate h1]; decide
    · subst h1; decide
    · exact renderInline_no_newline xs (inlineOK_all_chunk xs hxs) c h1
  | para xs =>
    unfold blockOK at hb
    have hxs := (Bool.and_eq_true_iff.mp hb).1
    intro l hl c hc
    simp only [encodeBlock, List.mem_singleton] at hl
    subst hl
    exact renderInline_no_newline xs (inlineOK_all_chunk xs hxs) c hc
  | codeBlock ls =>
    unfold blockOK at hb
    intro l hl c hc
    simp only [encodeBlock, List.mem_cons, List.mem_append, List.mem_singleton] at hl
    rcases hl with h1 | h1 | h1
    · subst h1
      have hcb : c = btick := by simpa [fenceLine] using hc
      subst hcb
      decide
    · have hba := (Bool.and_eq_true_iff.mp (List.all_eq_true.mp hb l h1)).2
      exact bne_iff_ne.mp (List.all_eq_true.mp hba c hc)
    · rcases h1 with h1 | h1
      · subst h1
        have hcb : c = btick := by simpa [fenceLine] using hc
        subst hcb
        decide
      · simp at h1
  | bulletList items =>
    unfold blockOK at hb
    have hall := (Bool.and_eq_true_iff.mp hb).2
    intro l hl c hc
    simp only [encodeBlock, List.mem_map] at hl
    obtain ⟨it, hit, rfl⟩ := hl
    simp only [List.mem_cons] at hc
    rcases hc with h1 | h1 | h1
    · subst h1; decide
    · subst h1; decide
    · exact renderInline_no_newline it
        (inlineOK_all_chunk it (List.all_eq_true.mp hall it hit)) c h1
  | orderedList items =>
    unfold blockOK at hb
    have hall := (Bool.and_eq_true_iff.mp hb).2
    exact orderedLines_no_newline items 1 hall

theorem encodeLines_no_newline (d : List Block) (h : docOK d = true) :
    ∀ l ∈ encodeLines d, ∀ c ∈ l, c ≠ '\n' := by
  induction d with
  | nil => intro l hl; simp [encodeLines] at hl
  | cons b bs ih =>
    intro l hl
    simp only [encodeLines, List.mem_append, List.mem_cons] at hl
    rcases hl with h1 | h1 | h1
    · exact encodeBlock_no_newline b (List.all_eq_true.mp h b (by simp)) l h1
    · subst h1; intro c hc; simp at hc
    · exact ih (List.all_eq_true.mpr fun x hx => List.all_eq_true.mp h x (by simp [hx])) l h1

/-- C6: Decoding the encoding is the identity on documents reachable
through normal editing, built from headings, paragraphs,
ordered/unordered lists, inline code and fenced code blocks:
`buildDocumentFromContent (buildContentFromDocument d) = d`. -/
theorem buildDocumentFromContent_roundtrip (d : List Block) (h : docOK d = true) :
    buildDocumentFromContent (buildContentFromDocument d) = d := by
  unfold buildDocumentFromContent buildContentFromDocument
  cases d with
  | nil =>
    rw [show encodeLines [] = [] from rfl, show joinLines [] = [] from rfl]
    rw [show splitLines [] = [[]] from rfl]
    rw [parseBlocks_blank]
    simp [parseBlocks]
  | cons b bs =>
    have hnn := encodeLines_no_newline (b :: bs) h
    have hne : encodeLines (b :: bs) ≠ [] := by
      simp only [encodeLines]
      intro hx
      have := congrArg List.length hx
      simp [List.length_append] at this
    rw [splitLines_joinLines _ hne hnn]
    exact parseBlocks_encodeLines (b :: bs) h

/-- A concrete well-formed document exercising every construct of the
codec fragment. -/
def c6Doc : List Block :=
  [ Block.heading 2 [Inline.str "Title".toList],
    Block.para [Inline.str "Intro ".toList, Inline.code "x+1".toList],
    Block.bulletList [[Inline.str "alpha".toList], [Inline.str "beta".toList]],
    Block.orderedList [[Inline.str "first".toList], [Inline.str "second".toList]],
    Block.codeBlock ["print(1)".toList, "print(2)".toList] ]

/-- Witness for the codec round trip: the hypothesis evaluates to `true`
on `c6Doc` and the round trip holds there. -/
theorem buildDocumentFromContent_roundtrip_witness :
    docOK c6Doc = true ∧
    buildDocumentFromContent (buildContentFromDocument c6Doc) = c6Doc :=
  ⟨by decide, buildDocumentFromContent_roundtrip c6Doc (by decide)⟩

/-! ## Document transaction handler

`handleTransaction` (`lib/editor/config.ts`) applies a transaction to the
editor state held behind a mutable ref and decides whether and how to
persist the serialized content. -/

/-- An editor transaction as `handleTransaction` observes it: whether the
document changed, the `no-save` and `no-debounce` meta flags, and the
document produced by `state.apply(transaction)`. -/
structure Transaction where
  docChanged : Bool
  noSave : Bool
  noDebounce : Bool
  resultDoc : List Block

/-- The editor view behind the mutable ref (only its document state is
relevant here). -/
structure EditorView where
  doc : List Block

/-- Observable outcome of one `handleTransaction` call: the state pushed
via `updateState`, and the `onSaveContent(updatedContent, debounce)` call
if one was made.  The function never throws: there is no error outcome. -/
structure TxResult where
  updatedView : Option EditorView
  saveCall : Option (List Char × Bool)

/-- Embeds `handleTransaction` (`lib/editor/config.ts`): a null ref or null
`current` returns silently; otherwise the new state is applied, and when
the transaction changed the document and lacks the `no-save` meta the
serialized content is passed to `onSaveContent` — with `debounce = false`
when `no-debounce` is set, `debounce = true` otherwise. -/
def handleTransaction (transaction : Transaction)
    (editorRef : Option EditorView) : TxResult :=
  match editorRef with
  | none => { updatedView := none, saveCall := none }
  | some _ =>
    let newDoc := transaction.resultDoc
    if transaction.docChanged && !transaction.noSave then
      let updatedContent := buildContentFromDocument newDoc
      if transaction.noDebounce then
        { updatedView := some ⟨newDoc⟩, saveCall := some (updatedContent, false) }
      else
        { updatedView := some ⟨newDoc⟩, saveCall := some (updatedContent, true) }
    else { updatedView := some ⟨newDoc⟩, saveCall := none }

/-- C3: With a live editor reference, the transition table holds: no
document change or a `no-save` meta means no persistence call; a change
without `no-save` serializes the new document and persists it — with
debouncing disabled under `no-debounce`, enabled otherwise. -/
theorem handleTransaction_table (v : EditorView) (d : List Block) :
    (∀ ns nd : Bool,
      (handleTransaction ⟨false, ns, nd, d⟩ (some v)).saveCall = none) ∧
    (∀ nd : Bool,
      (handleTransaction ⟨true, true, nd, d⟩ (some v)).saveCall = none) ∧
    (handleTransaction ⟨true, false, true, d⟩ (some v)).saveCall
      = some (buildContentFromDocument d, false) ∧
    (handleTransaction ⟨true, false, false, d⟩ (some v)).saveCall
      = some (buildContentFromDocument d, true) := by
  exact ⟨fun ns nd => rfl, fun nd => rfl, rfl, rfl⟩

/-- C4 (code bug): When the editor reference is unavailable the
function returns silently — nothing is applied, nothing is saved, and no
error is thrown or returned (the result type has no error channel) —
although the function's own documentation says `@throws If the editor
reference is unavailable` and the spec demands the failure be surfaced. -/
theorem handleTransaction_null_ref_silent (t : Transaction) :
    handleTransaction t none = { updatedView := none, saveCall := none } := rfl

/-! ## Message reconciliation layer (`lib/utils.ts`) -/

/-- A `tool-result` part of a tool message. -/
structure ToolResultPart where
  toolCallId : String
  result : String
  deriving DecidableEq, Repr

/-- A structured content part of an assistant message. -/
inductive AsstPart where
  | text (text : String)
  | toolCall (toolCallId : String) (args : String)
  | reasoning (reasoning : String)
  deriving DecidableEq, Repr

/-- Assistant message content: plain string or structured parts. -/
inductive AsstContent where
  | str (s : String)
  | parts (ps : List AsstPart)
  deriving DecidableEq, Repr

/-- A freshly generated response message: assistant or tool role. -/
inductive ResponseMessage where
  | assistant (id : String) (content : AsstContent)
  | tool (id : String) (content : List ToolResultPart)
  deriving DecidableEq, Repr

/-- The first loop of `sanitizeResponseMessages`: tool-call ids that have
a result in some tool message of the batch, in encounter order. -/
def toolResultIds (messages : List ResponseMessage) : List String :=
  (messages.map fun m =>
    match m with
    | .tool _ content => content.map fun p => p.toolCallId
    | _ => []).flatten

/-- JavaScript `content.length` of a message: characters of a string
content, number of parts otherwise. -/
def contentLen : ResponseMessage → Nat
  | .assistant _ (.str s) => s.length
  | .assistant _ (.parts ps) => ps.length
  | .tool _ content => content.length

/-- Embeds `sanitizeResponseMessages` (`lib/utils.ts`): keeps a tool-call part
only if its id has a matching tool-result in the batch, keeps text parts
only when non-empty, appends a reasoning part when the `reasoning`
argument is truthy (present and non-empty), and finally drops every
message whose content has length zero. -/
def sanitizeResponseMessages (messages : List ResponseMessage)
    (reasoning : Option String) : List ResponseMessage :=
  let ids := toolResultIds messages
  let messagesBySanitizedContent := messages.map fun m =>
    match m with
    | .tool _ _ => m
    | .assistant _ (.str _) => m
    | .assistant mid (.parts ps) =>
      let sanitizedContent := ps.filter fun p =>
        match p with
        | .toolCall tid _ => ids.contains tid
        | .text t => decide (0 < t.length)
        | .reasoning _ => true
      let sanitizedContent :=
        match reasoning with
        | some r => if r = "" then sanitizedContent
                    else sanitizedContent ++ [AsstPart.reasoning r]
        | none => sanitizedContent
      .assistant mid (.parts sanitizedContent)
  messagesBySanitizedContent.filter fun m => decide (0 < contentLen m)

/-- Whether some tool message of the batch carries a result for `tid`
(the spec's reading of "a matching tool-result anywhere in the batch"). -/
def hasMatchingToolResult (messages : List ResponseMessage) (tid : String) : Bool :=
  messages.any fun m =>
    match m with
    | .tool _ content => content.any fun p => p.toolCallId == tid
    | _ => false

/-- The sanitization described by the (amended) spec sentence, written
with membership tests instead of the code's accumulated id list. -/
def specSanitizeResponseMessages (messages : List ResponseMessage)
    (reasoning : Option String) : List ResponseMessage :=
  (messages.map fun m =>
    match m with
    | .tool _ _ => m
    | .assistant _ (.str _) => m
    | .assistant mid (.parts ps) =>
      .assistant mid (.parts
        ((ps.filter fun p =>
          match p with
          | .toolCall tid _ => hasMatchingToolResult messages tid
          | .text t => decide (0 < t.length)
          | .reasoning _ => true)
        ++ match reasoning with
           | some r => if r = "" then [] else [AsstPart.reasoning r]
           | none => []))).filter fun m => decide (0 < contentLen m)

theorem bool_eq_of_iff {a b : Bool} (h : a = true ↔ b = true) : a = b := by
  cases a <;> cases b <;> simp_all

theorem toolResultIds_contains (messages : List ResponseMessage) (tid : String) :
    (toolResultIds messages).contains tid = hasMatchingToolResult messages tid := by
  apply bool_eq_of_iff
  constructor
  · intro h
    have hmem : tid ∈ toolResultIds messages := by
      rw [List.contains_iff_exists_mem_beq] at h
      obtain ⟨x, hx, hbeq⟩ := h
      rw [show tid = x from beq_iff_eq.mp hbeq]
      exact hx
    unfold toolResultIds at hmem
    rw [List.mem_flatten] at hmem
    obtain ⟨l, hl, htid⟩ := hmem
    rw [List.mem_map] at hl
    obtain ⟨m, hm, rfl⟩ := hl
    unfold hasMatchingToolResult
    rw [List.any_eq_true]
    refine ⟨m, hm, ?_⟩
    cases m with
    | assistant mid c => simp at htid
    | tool mid content =>
      rw [List.any_eq_true]
      simp only [List.mem_map] at htid
      obtain ⟨p, hp, hpid⟩ := htid
      exact ⟨p, hp, beq_iff_eq.mpr hpid⟩
  · intro h
    unfold hasMatchingToolResult at h
    rw [List.any_eq_true] at h
    obtain ⟨m, hm, hmt⟩ := h
    cases m with
    | assistant mid c => simp at hmt
    | tool mid content =>
      rw [List.any_eq_true] at hmt
      obtain ⟨p, hp, hpid⟩ := hmt
      have htid : tid ∈ toolResultIds messages := by
        unfold toolResultIds
        rw [List.mem_flatten]
        refine ⟨content.map fun p => p.toolCallId, ?_, ?_⟩
        · rw [List.mem_map]
          exact ⟨.tool mid content, hm, rfl⟩
        · rw [List.mem_map]
          exact ⟨p, hp, beq_iff_eq.mp hpid⟩
      rw [List.contains_iff_exists_mem_beq]
      exact ⟨tid, htid, beq_self_eq_true tid⟩

/-- C7 (amended): `sanitizeResponseMessages` strips from each
assistant message's structured content every tool-call lacking a matching
tool-result in the batch and every empty text part, appends a reasoning
part exactly when a **non-empty** reasoning string was supplied, and drops
every message whose content is left empty. -/
theorem sanitizeResponseMessages_spec (messages : List ResponseMessage)
    (reasoning : Option String) :
    sanitizeResponseMessages messages reasoning
      = specSanitizeResponseMessages messages reasoning := by
  simp only [sanitizeResponseMessages, specSanitizeResponseMessages]
  congr 1
  apply List.map_congr_left
  intro m _
  cases m with
  | tool mid content => rfl
  | assistant mid c =>
    cases c with
    | str s => rfl
    | parts ps =>
      have hfilter :
          (ps.filter fun p =>
            match p with
            | .toolCall tid _ => (toolResultIds messages).contains tid
            | .text t => decide (0 < t.length)
            | .reasoning _ => true)
          = ps.filter fun p =>
            match p with
            | .toolCall tid _ => hasMatchingToolResult messages tid
            | .text t => decide (0 < t.length)
            | .reasoning _ => true := by
        apply List.filter_congr
        intro p _
        cases p with
        | toolCall tid args => exact toolResultIds_contains messages tid
        | text t => rfl
        | reasoning r => rfl
      simp only [hfilter]
      cases reasoning with
      | none => simp
      | some r =>
        by_cases hr : r = ""
        · simp [hr]
        · simp [hr]

/-- The assistant message of the C7 counterexample. -/
def c7Msg : ResponseMessage := .assistant "m1" (.parts [.text "hi"])

/-- Whether a message carries a reasoning part. -/
def hasReasoningPart : ResponseMessage → Bool
  | .assistant _ (.parts ps) =>
    ps.any fun p => match p with | .reasoning _ => true | _ => false
  | _ => false

/-- C7 counterexample: Reasoning **was** supplied (`some ""`), yet the
output carries no reasoning part — the code's truthiness test skips the
empty string — refuting "appends a reasoning part exactly when reasoning
was supplied". -/
theorem sanitizeResponseMessages_empty_reasoning_skipped :
    sanitizeResponseMessages [c7Msg] (some "") = [c7Msg] ∧
    hasReasoningPart c7Msg = false ∧
    (some "" ≠ (none : Option String)) := by
  refine ⟨by decide, by decide, by simp⟩

/-! ### `sanitizeUIMessages` -/

/-- State of a tool invocation in a UI message. -/
inductive InvState where
  | partialCall
  | call
  | result
  deriving DecidableEq, Repr

/-- A tool invocation record of a UI message. -/
structure ToolInvocation where
  state : InvState
  toolCallId : String
  deriving DecidableEq, Repr

/-- A UI message (`Message` of the ai sdk): role, string content, and an
optional tool-invocation list. -/
structure UIMessage where
  id : String
  role : String
  content : String
  toolInvocations : Option (List ToolInvocation)
  deriving DecidableEq, Repr

/-- Embeds `sanitizeUIMessages` (`lib/utils.ts`): for assistant messages with
invocations, keeps an invocation if it is in `result` state or its id
appears among the message's own `result`-state invocations; the final
filter keeps any message with non-empty content or a non-empty invocation
list. -/
def sanitizeUIMessages (messages : List UIMessage) : List UIMessage :=
  let messagesBySanitizedToolInvocations := messages.map fun m =>
    if m.role != "assistant" then m
    else
      match m.toolInvocations with
      | none => m
      | some invs =>
        let resultIds :=
          (invs.filter fun ti => ti.state == InvState.result).map fun ti => ti.toolCallId
        { m with toolInvocations := some (invs.filter fun ti =>
            ti.state == InvState.result || resultIds.contains ti.toolCallId) }
  messagesBySanitizedToolInvocations.filter fun m =>
    decide (0 < m.content.length) ||
      (match m.toolInvocations with
       | some invs => decide (0 < invs.length)
       | none => false)

/-- The spec's keeping rule: the invocation is a result, or some
invocation of the same message shares its id and is a result. -/
def specKeepInvocation (invs : List ToolInvocation) (ti : ToolInvocation) : Bool :=
  ti.state == InvState.result ||
    invs.any fun other =>
      other.state == InvState.result && other.toolCallId == ti.toolCallId

/-- The sanitization described by the (amended) spec sentence. -/
def specSanitizeUIMessages (messages : List UIMessage) : List UIMessage :=
  (messages.map fun m =>
    if m.role != "assistant" then m
    else
      match m.toolInvocations with
      | none => m
      | some invs =>
        { m with toolInvocations := some (invs.filter (specKeepInvocation invs)) })
    |>.filter fun m =>
      decide (0 < m.content.length) ||
        (match m.toolInvocations with
         | some invs => decide (0 < invs.length)
         | none => false)

theorem resultIds_contains (invs : List ToolInvocation) (ti : ToolInvocation) :
    ((invs.filter fun x => x.state == InvState.result).map
        fun x => x.toolCallId).contains ti.toolCallId
      = invs.any fun other =>
          other.state == InvState.result && other.toolCallId == ti.toolCallId := by
  apply bool_eq_of_iff
  constructor
  · intro h
    rw [List.contains_iff_exists_mem_beq] at h
    obtain ⟨x, hx, hbeq⟩ := h
    rw [List.mem_map] at hx
    obtain ⟨other, hmem, hid⟩ := hx
    rw [List.mem_filter] at hmem
    rw [List.any_eq_true]
    refine ⟨other, hmem.1, ?_⟩
    rw [Bool.and_eq_true_iff]
    refine ⟨hmem.2, ?_⟩
    rw [hid]
    rw [beq_iff_eq] at hbeq ⊢
    exact hbeq.symm
  · intro h
    rw [List.any_eq_true] at h
    obtain ⟨other, hmem, hprop⟩ := h
    rw [Bool.and_eq_true_iff] at hprop
    rw [List.contains_iff_exists_mem_beq]
    refine ⟨other.toolCallId, ?_, ?_⟩
    · rw [List.mem_map]
      exact ⟨other, List.mem_filter.mpr ⟨hmem, hprop.1⟩, rfl⟩
    · rw [beq_iff_eq]
      exact (beq_iff_eq.mp hprop.2).symm

/-- C8 (amended): `sanitizeUIMessages` keeps a toolInvocation of an
assistant message exactly when it is in `result` state or shares its
`toolCallId` with a `result`-state invocation of the same message; it does
not modify non-assistant messages, but the final filter drops **any**
message — assistant or not — whose content is empty and whose invocation
list is empty or absent. -/
theorem sanitizeUIMessages_spec (messages : List UIMessage) :
    sanitizeUIMessages messages = specSanitizeUIMessages messages := by
  simp only [sanitizeUIMessages, specSanitizeUIMessages]
  congr 1
  apply List.map_congr_left
  intro m _
  by_cases hrole : m.role = "assistant"
  · simp only [hrole]
    cases m.toolInvocations with
    | none => rfl
    | some invs =>
      simp only []
      congr 2
      apply congrArg
      apply List.filter_congr
      intro ti _
      unfold specKeepInvocation
      rw [resultIds_contains]
  · simp [hrole]

/-- The non-assistant message of the C8 counterexample. -/
def c8User : UIMessage :=
  { id := "u1", role := "user", content := "", toolInvocations := none }

/-- C8 counterexample: A user message with empty content is removed by
the final filter, refuting "non-assistant messages pass through
unchanged". -/
theorem sanitizeUIMessages_drops_empty_user :
    c8User.role ≠ "assistant" ∧ sanitizeUIMessages [c8User] = [] := by
  refine ⟨by decide, by decide⟩

/-! ## Document tools and the data stream

The three tools (`lib/ai/tools/create-document.ts`,
`lib/ai/tools/update-document.ts`, `lib/ai/tools/request-suggestions.ts`)
write ordered typed events to the data stream and persist through the
store.  An execution is modelled as the ordered list of stream events, the
list of persistence calls it makes, and its returned value. -/

/-- The four artifact kinds (`artifactKinds` in `lib/artifacts/server.ts`). -/
inductive ArtifactKind where
  | text
  | code
  | image
  | sheet
  deriving DecidableEq, Repr

/-- Wire content of the `kind` event. -/
def ArtifactKind.toContent : ArtifactKind → String
  | .text => "text"
  | .code => "code"
  | .image => "image"
  | .sheet => "sheet"

/-- The suggestion object streamed by `requestSuggestions` (before user
and timestamps are attached for persistence). -/
structure StreamSuggestion where
  originalText : String
  suggestedText : String
  description : String
  id : String
  documentId : String
  isResolved : Bool
  deriving DecidableEq, Repr

/-- One typed data-stream event (`dataStream.writeData` payloads). -/
inductive DataEvent where
  | kind (content : String)
  | id (content : String)
  | title (content : String)
  | clear (content : String)
  | suggestion (content : StreamSuggestion)
  | finish (content : String)
  deriving DecidableEq, Repr

/-- Event type tags, for the ordering/repetition invariants. -/
inductive EvType where
  | kindT
  | idT
  | titleT
  | clearT
  | suggestionT
  | finishT
  deriving DecidableEq, Repr

/-- The type tag of an event. -/
def DataEvent.evType : DataEvent → EvType
  | .kind _ => .kindT
  | .id _ => .idT
  | .title _ => .titleT
  | .clear _ => .clearT
  | .suggestion _ => .suggestionT
  | .finish _ => .finishT

/-- Number of events of one type in a trace. -/
def countType (t : EvType) (evs : List DataEvent) : Nat :=
  (evs.filter fun e => e.evType == t).length

/-- An authenticated or anonymous session (`session.user?.id`). -/
structure Session where
  userId : Option String
  deriving DecidableEq, Repr

/-- One `saveDocument` call (`lib/db/queries.ts`): inserts a new
`(id, createdAt)` document version row. -/
structure SavedDocument where
  id : String
  title : String
  kind : ArtifactKind
  content : String
  userId : String
  deriving DecidableEq, Repr

/-- A stored document row as `getDocumentById` returns it. -/
structure DBDocument where
  id : String
  createdAt : Nat
  title : String
  content : Option String
  kind : ArtifactKind
  userId : String
  deriving DecidableEq, Repr

/-- Modelled from the spec: the per-kind handler configurations
(`artifacts/text/server.ts` and siblings are not under `src/`).  Per spec
§4.6–4.7 a handler streams zero-or-more `suggestion` events over the data
stream while the operation is in flight and returns the draft content. -/
structure DocumentHandlerBody where
  onCreate : String → String → Session → List StreamSuggestion × String
  onUpdate : DBDocument → String → Session → List StreamSuggestion × String

/-- A registered document handler (kind plus wrapped callbacks). -/
structure DocumentHandler where
  kind : ArtifactKind
  body : DocumentHandlerBody

/-- The `createDocumentHandler` wrapping (`lib/artifacts/server.ts`,
`onCreateDocument`): run the configured callback, then persist the draft
content as a new document version exactly when the session carries a user
id.  Returns the handler's streamed events and the `saveDocument` calls. -/
def createDocumentHandler_onCreate (kind : ArtifactKind)
    (body : DocumentHandlerBody) (id title : String) (session : Session) :
    List DataEvent × List SavedDocument :=
  let callbackResult := body.onCreate id title session
  let events := callbackResult.1.map DataEvent.suggestion
  let saves :=
    match session.userId with
    | some uid => [{ id := id, title := title, kind := kind,
                     content := callbackResult.2, userId := uid }]
    | none => []
  (events, saves)

/-- The fixed registry (`documentHandlersByArtifactKind`), one handler per
kind, bodies abstract. -/
def documentHandlersByArtifactKind (bodies : ArtifactKind → DocumentHandlerBody) :
    List DocumentHandler :=
  [⟨.text, bodies .text⟩, ⟨.code, bodies .code⟩,
   ⟨.image, bodies .image⟩, ⟨.sheet, bodies .sheet⟩]

/-- The object returned by the createDocument tool. -/
structure CreateDocumentResult where
  id : String
  title : String
  kind : ArtifactKind
  content : String
  deriving DecidableEq, Repr

/-- Embeds `createDocument.execute` (`lib/ai/tools/create-document.ts`): writes
`kind`, `id`, `title`, `clear("")`, looks up the handler (throwing for an
unregistered kind), runs it, then writes `finish("")` and returns the
result object.  `uuid` stands for the generated `generateUUID()` value. -/
def createDocumentExecute (bodies : ArtifactKind → DocumentHandlerBody)
    (session : Session) (uuid : String) (title : String) (kind : ArtifactKind) :
    Except String (List DataEvent × List SavedDocument × CreateDocumentResult) :=
  let trace0 := [DataEvent.kind kind.toContent, DataEvent.id uuid,
                 DataEvent.title title, DataEvent.clear ""]
  match (documentHandlersByArtifactKind bodies).find? fun h => h.kind == kind with
  | none => .error ("No document handler found for kind: " ++ kind.toContent)
  | some documentHandler =>
    let handlerRun := createDocumentHandler_onCreate documentHandler.kind
      documentHandler.body uuid title session
    .ok (trace0 ++ handlerRun.1 ++ [DataEvent.finish ""], handlerRun.2,
         { id := uuid, title := title, kind := kind,
           content := "A document was created and is now visible to the user." })

theorem countType_append (t : EvType) (a b : List DataEvent) :
    countType t (a ++ b) = countType t a + countType t b := by
  unfold countType
  rw [List.filter_append, List.length_append]

theorem countType_suggestions (t : EvType) (l : List StreamSuggestion) :
    countType t (l.map DataEvent.suggestion)
      = if t = EvType.suggestionT then l.length else 0 := by
  induction l with
  | nil => cases t <;> simp [countType]
  | cons x xs ih =>
    unfold countType at ih ⊢
    cases t
    all_goals simp [DataEvent.evType, List.filter_cons, ih] at *
    all_goals omega

/-- C5: For every registered kind, the execute writes exactly
`kind`, `id`, `title`, `clear("")`, then the handler's events, then a
final `finish("")`; each of the five non-`suggestion` event types occurs
exactly once (so only `suggestion` repeats), `finish` is last, and the
handler's returned content is persisted as a new document version with
that kind and title exactly when the session is authenticated. -/
theorem createDocumentExecute_spec (bodies : ArtifactKind → DocumentHandlerBody)
    (session : Session) (uuid title : String) (kind : ArtifactKind) :
    createDocumentExecute bodies session uuid title kind
      = .ok ([DataEvent.kind kind.toContent, DataEvent.id uuid,
              DataEvent.title title, DataEvent.clear ""]
             ++ ((bodies kind).onCreate uuid title session).1.map DataEvent.suggestion
             ++ [DataEvent.finish ""],
             (match session.userId with
              | some uid => [{ id := uuid, title := title, kind := kind,
                               content := ((bodies kind).onCreate uuid title session).2,
                               userId := uid }]
              | none => []),
             { id := uuid, title := title, kind := kind,
               content := "A document was created and is now visible to the user." }) ∧
    (∀ suggs : List StreamSuggestion,
      let trace := [DataEvent.kind kind.toContent, DataEvent.id uuid,
                    DataEvent.title title, DataEvent.clear ""]
          ++ suggs.map DataEvent.suggestion ++ [DataEvent.finish ""]
      countType .finishT trace = 1 ∧
      trace.getLast? = some (DataEvent.finish "") ∧
      countType .kindT trace = 1 ∧ countType .idT trace = 1 ∧
      countType .titleT trace = 1 ∧ countType .clearT trace = 1 ∧
      countType .suggestionT trace = suggs.length) := by
  constructor
  · cases kind <;> rfl
  · intro suggs
    refine ⟨?_, ?_, ?_, ?_, ?_, ?_, ?_⟩
    · rw [countType_append, countType_append, countType_suggestions]
      rfl
    · exact List.getLast?_concat _
    · rw [countType_append, countType_append, countType_suggestions]
      rfl
    · rw [countType_append, countType_append, countType_suggestions]
      rfl
    · rw [countType_append, countType_append, countType_suggestions]
      rfl
    · rw [countType_append, countType_append, countType_suggestions]
      rfl
    · rw [countType_append, countType_append, countType_suggestions]
      rw [if_pos rfl]
      rw [show countType EvType.suggestionT [DataEvent.kind kind.toContent,
        DataEvent.id uuid, DataEvent.title title, DataEvent.clear ""] = 0 from rfl]
      rw [show countType EvType.suggestionT [DataEvent.finish ""] = 0 from rfl]
      omega

/-- Result of the updateDocument tool: the structured error object or the
success object. -/
inductive UpdateDocumentResult where
  | error (message : String)
  | ok (id title : String) (kind : ArtifactKind) (content : String)
  deriving DecidableEq, Repr

/-- Embeds `updateDocument.execute` (`lib/ai/tools/update-document.ts`): a
missing document returns the structured `{error}` result before touching
the stream; otherwise `clear(title)` is written, the handler runs (its
wrapper persisting when authenticated), and `finish("")` closes the
stream. -/
def updateDocumentExecute (bodies : ArtifactKind → DocumentHandlerBody)
    (getDocumentById : String → Option DBDocument) (session : Session)
    (id description : String) :
    Except String (List DataEvent × List SavedDocument × UpdateDocumentResult) :=
  match getDocumentById id with
  | none => .ok ([], [], .error "Document not found")
  | some document =>
    match (documentHandlersByArtifactKind bodies).find?
        (fun h => h.kind == document.kind) with
    | none => .error ("No document handler found for kind: "
        ++ document.kind.toContent)
    | some documentHandler =>
      let callbackResult := documentHandler.body.onUpdate document description session
      let saves :=
        match session.userId with
        | some uid => [{ id := document.id, title := document.title,
                         kind := documentHandler.kind,
                         content := callbackResult.2, userId := uid }]
        | none => []
      .ok (DataEvent.clear document.title
             :: callbackResult.1.map DataEvent.suggestion
             ++ [DataEvent.finish ""],
           saves,
           .ok id document.title document.kind
             "The document has been updated successfully.")

/-- Result of the requestSuggestions tool. -/
inductive RequestSuggestionsResult where
  | error (message : String)
  | ok (id title : String) (kind : ArtifactKind) (message : String)
  deriving DecidableEq, Repr

/-- One element of the model's streamed suggestion array. -/
structure RSElement where
  originalSentence : String
  suggestedSentence : String
  description : String
  deriving DecidableEq, Repr

/-- A suggestion row as passed to `saveSuggestions`. -/
structure SavedSuggestion extends StreamSuggestion where
  userId : String
  createdAt : Nat
  documentCreatedAt : Nat
  deriving DecidableEq, Repr

/-- The suggestion object built for the `i`-th stream element
(`generateUUID()` modelled by `uuidGen i`). -/
def rsPayload (uuidGen : Nat → String) (documentId : String) (i : Nat)
    (e : RSElement) : StreamSuggestion :=
  { originalText := e.originalSentence, suggestedText := e.suggestedSentence,
    description := e.description, id := uuidGen i, documentId := documentId,
    isResolved := false }

/-- The `for await` loop of `requestSuggestions.execute`: each element is
forwarded as a `suggestion` event and buffered. -/
def rsLoop (uuidGen : Nat → String) (documentId : String) :
    Nat → List RSElement → List DataEvent × List StreamSuggestion
  | _, [] => ([], [])
  | i, e :: rest =>
    let suggestion := rsPayload uuidGen documentId i e
    let tail := rsLoop uuidGen documentId (i + 1) rest
    (DataEvent.suggestion suggestion :: tail.1, suggestion :: tail.2)

/-- JavaScript truthiness of `document.content` (`null` and `""` are
falsy). -/
def contentTruthy : Option String → Bool
  | none => false
  | some s => decide (0 < s.length)

/-- Embeds `requestSuggestions.execute` (`lib/ai/tools/request-suggestions.ts`):
a missing document or falsy content returns the structured `{error}`
result; otherwise every stream element is forwarded as a `suggestion`
event, and after the stream completes one `saveSuggestions` call persists
the buffer — only when the session carries a user id.  The middle
component lists the `saveSuggestions` calls made. -/
def requestSuggestionsExecute (getDocumentById : String → Option DBDocument)
    (session : Session) (uuidGen : Nat → String) (now : Nat)
    (elements : List RSElement) (documentId : String) :
    List DataEvent × List (List SavedSuggestion) × RequestSuggestionsResult :=
  match getDocumentById documentId with
  | none => ([], [], .error "Document not found")
  | some document =>
    if contentTruthy document.content then
      let run := rsLoop uuidGen documentId 0 elements
      let saveCalls :=
        match session.userId with
        | some uid =>
          [run.2.map fun s =>
            { toStreamSuggestion := s, userId := uid, createdAt := now,
              documentCreatedAt := document.createdAt }]
        | none => []
      (run.1, saveCalls,
       .ok documentId document.title document.kind
         "Suggestions have been added to the document")
    else ([], [], .error "Document not found")

/-- C9: When the target document is missing from the store, both
`updateDocument.execute` and `requestSuggestions.execute` return the
structured `{error: "Document not found"}` result — they do not throw —
with an empty event trace and no persistence call. -/
theorem tools_not_found_structured_error
    (bodies : ArtifactKind → DocumentHandlerBody)
    (getDocumentById : String → Option DBDocument) (session : Session)
    (uuidGen : Nat → String) (now : Nat) (elements : List RSElement)
    (id description docId : String)
    (h1 : getDocumentById id = none) (h2 : getDocumentById docId = none) :
    updateDocumentExecute bodies getDocumentById session id description
      = .ok ([], [], .error "Document not found") ∧
    requestSuggestionsExecute getDocumentById session uuidGen now elements docId
      = ([], [], .error "Document not found") := by
  constructor
  · unfold updateDocumentExecute
    rw [h1]
  · unfold requestSuggestionsExecute
    rw [h2]

/-- Witness for `tools_not_found_structured_error` on the empty store. -/
theorem tools_not_found_structured_error_witness :
    updateDocumentExecute
        (fun _ => ⟨fun _ _ _ => ([], ""), fun _ _ _ => ([], "")⟩)
        (fun _ => none) ⟨none⟩ "doc1" "desc"
      = .ok ([], [], .error "Document not found") ∧
    requestSuggestionsExecute (fun _ => none) ⟨none⟩ (fun _ => "u") 0 [] "doc1"
      = ([], [], .error "Document not found") :=
  tools_not_found_structured_error
    (fun _ => ⟨fun _ _ _ => ([], ""), fun _ _ _ => ([], "")⟩)
    (fun _ => none) ⟨none⟩ (fun _ => "u") 0 [] "doc1" "desc" "doc1" rfl rfl

theorem rsLoop_length (uuidGen : Nat → String) (documentId : String)
    (elements : List RSElement) :
    ∀ i : Nat, (rsLoop uuidGen documentId i elements).1.length = elements.length := by
  induction elements with
  | nil => intro i; rfl
  | cons e rest ih => intro i; simp [rsLoop, ih (i + 1)]

theorem rsLoop_events (uuidGen : Nat → String) (documentId : String)
    (elements : List RSElement) :
    ∀ i k : Nat,
      (rsLoop uuidGen documentId i elements).1[k]?
        = (elements[k]?).map fun e =>
            DataEvent.suggestion (rsPayload uuidGen documentId (i + k) e) := by
  induction elements with
  | nil => intro i k; simp [rsLoop]
  | cons e rest ih =>
    intro i k
    cases k with
    | zero => simp [rsLoop]
    | succ k' =>
      simp only [rsLoop, List.getElem?_cons_succ]
      rw [ih (i + 1) k']
      rw [show i + 1 + k' = i + (k' + 1) from by omega]

/-- C10: On an existing document with truthy content under a session
with no user id: every stream element is still forwarded to the client as
a `suggestion` event (in order, with its generated id), but
`saveSuggestions` is never invoked, leaving the suggestion store
untouched. -/
theorem requestSuggestions_unauthenticated_no_save
    (getDocumentById : String → Option DBDocument) (uuidGen : Nat → String)
    (now : Nat) (elements : List RSElement) (docId : String)
    (document : DBDocument) (h1 : getDocumentById docId = some document)
    (h2 : contentTruthy document.content = true) :
    (requestSuggestionsExecute getDocumentById ⟨none⟩ uuidGen now elements docId).2.1
      = [] ∧
    (requestSuggestionsExecute getDocumentById ⟨none⟩ uuidGen now elements docId).1.length
      = elements.length ∧
    (∀ k : Nat,
      (requestSuggestionsExecute getDocumentById ⟨none⟩ uuidGen now elements docId).1[k]?
        = (elements[k]?).map fun e =>
            DataEvent.suggestion (rsPayload uuidGen docId k e)) := by
  have hout : requestSuggestionsExecute getDocumentById ⟨none⟩ uuidGen now elements docId
      = ((rsLoop uuidGen docId 0 elements).1, [],
         .ok docId document.title document.kind
           "Suggestions have been added to the document") := by
    unfold requestSuggestionsExecute
    rw [h1]
    simp only [h2, if_true]
  refine ⟨by rw [hout], ?_, ?_⟩
  · rw [hout]
    exact rsLoop_length uuidGen docId elements 0
  · intro k
    rw [hout]
    have := rsLoop_events uuidGen docId elements 0 k
    simpa using this

/-- Witness for `requestSuggestions_unauthenticated_no_save` on a concrete
one-document store and a two-element stream. -/
theorem requestSuggestions_unauthenticated_no_save_witness :
    (requestSuggestionsExecute
        (fun x => if x = "d1" then
            some ⟨"d1", 7, "T", some "body", ArtifactKind.text, "owner"⟩
          else none)
        ⟨none⟩ (fun i => toString i) 3
        [⟨"a", "b", "c"⟩, ⟨"d", "e", "f"⟩] "d1").2.1 = [] ∧
    (requestSuggestionsExecute
        (fun x => if x = "d1" then
            some ⟨"d1", 7, "T", some "body", ArtifactKind.text, "owner"⟩
          else none)
        ⟨none⟩ (fun i => toString i) 3
        [⟨"a", "b", "c"⟩, ⟨"d", "e", "f"⟩] "d1").1.length = 2 := by
  have h := requestSuggestions_unauthenticated_no_save
    (fun x => if x = "d1" then
        some ⟨"d1", 7, "T", some "body", ArtifactKind.text, "owner"⟩
      else none)
    (fun i => toString i) 3 [⟨"a", "b", "c"⟩, ⟨"d", "e", "f"⟩] "d1"
    ⟨"d1", 7, "T", some "body", ArtifactKind.text, "owner"⟩ (by decide) (by decide)
  exact ⟨h.1, h.2.1⟩

end AgileCoach
